import Mathlib

/-!
Verification development for the classical QKD post-processing pipeline
(`hackathon_challenge`): bit/field utilities, GF(2^n) arithmetic, polynomial
hashing, Cascade binary search, Wegman-Carter authentication, the
authenticated socket wrapper, and privacy amplification with the
Devetak-Winter key-length formula.

Python source files are embedded shallowly: pure functions become Lean
functions on `ℕ`/`ℤ`/`ℚ`/`List ℕ`; floating-point arithmetic is idealised
as real arithmetic; functions that raise `ValueError` return `Option`;
the HMAC-SHA256 digest and the JSON serializer are abstracted as function
parameters (the claims under study do not depend on their internals).
-/

namespace QKD

/-! ## Bit utilities (verification/utils.py) -/

/-- Embedding of `bits_to_int` (big-endian branch, the default): fold
`result = (result << 1) | (bit & 1)` over the list. -/
def bits_to_int (bits : List ℕ) : ℕ :=
  bits.foldl (fun result bit => (result <<< 1) ||| (bit &&& 1)) 0

/-- Zero-padding of a chunk to `chunkSize` bits, as done on the last chunk
inside `chunk_bits`. -/
def padChunk (chunkSize : ℕ) (chunk : List ℕ) : List ℕ :=
  chunk ++ List.replicate (chunkSize - chunk.length) 0

/-- Fuel-based worker for `chunk_bits`: repeatedly take `chunkSize` bits
(padding the final short chunk with zeros).  The fuel only bounds the
number of chunks; called with `fuel = l.length` it is never exhausted,
since every chunk consumes at least one bit.  The Python loop
`range(0, len, chunk_size)` requires a positive step; a zero chunk size
yields `[]` here (the sources only call it with 64 or 128). -/
def chunksGoF (chunkSize : ℕ) : ℕ → List ℕ → List (List ℕ)
  | _, [] => []
  | 0, _ :: _ => []
  | fuel + 1, a :: l =>
    if chunkSize = 0 then []
    else padChunk chunkSize ((a :: l).take chunkSize)
      :: chunksGoF chunkSize fuel ((a :: l).drop chunkSize)

/-- The chunking loop of `chunk_bits`. -/
def chunksGo (chunkSize : ℕ) (l : List ℕ) : List (List ℕ) :=
  chunksGoF chunkSize l.length l

/-- Embedding of `chunk_bits`: empty input gives no chunks, otherwise
split into `chunk_size` pieces, zero-padding the last. -/
def chunk_bits (bits : List ℕ) (chunkSize : ℕ) : List (List ℕ) :=
  if bits = [] then [] else chunksGo chunkSize bits

/-- Embedding of `bits_to_field_elements`: chunk the bits and convert each
chunk to an integer (big-endian). -/
def bits_to_field_elements (bits : List ℕ) (elementBits : ℕ) : List ℕ :=
  (chunk_bits bits elementBits).map bits_to_int

/-! ## GF(2^n) arithmetic (verification/utils.py) -/

/-- Reduction constant for GF(2^64): feedback bits of x^64+x^4+x^3+x+1. -/
def GF64_MODULUS : ℕ := 0x1B

/-- Reduction constant for GF(2^128): feedback bits of x^128+x^7+x^2+x+1. -/
def GF128_MODULUS : ℕ := 0x87

/-- The modulus selection at the top of `gf_multiply`; unsupported field
sizes raise `ValueError` (here: `none`). -/
def gfModulus (fieldBits : ℕ) : Option ℕ :=
  if fieldBits = 64 then some GF64_MODULUS
  else if fieldBits = 128 then some GF128_MODULUS
  else none

/-- One shift-and-reduce step of `gf_multiply`: shift `a` left, mask to the
field width, and XOR in the modulus if the top bit overflowed. -/
def gfDouble (fieldBits modulus a : ℕ) : ℕ :=
  let carry := a >>> (fieldBits - 1)
  let a2 := (a <<< 1) &&& ((1 <<< fieldBits) - 1)
  if carry ≠ 0 then a2 ^^^ modulus else a2

/-- Fuel-based Russian-peasant loop of `gf_multiply`: while `b` is nonzero,
XOR `a` into the accumulator when the low bit of `b` is set, then halve
`b` and shift-and-reduce `a`.  The fuel only bounds the iteration count;
called with `fuel = b` it is never exhausted, since `b` at least halves
every iteration. -/
def gfMulLoopF (fieldBits modulus : ℕ) : ℕ → ℕ → ℕ → ℕ → ℕ
  | _, result, _, 0 => result
  | 0, result, _, _ + 1 => result
  | fuel + 1, result, a, b + 1 =>
    gfMulLoopF fieldBits modulus fuel
      (if (b + 1) &&& 1 = 1 then result ^^^ a else result)
      (gfDouble fieldBits modulus a) ((b + 1) / 2)

/-- The shift-and-XOR loop of `gf_multiply`. -/
def gfMulLoop (fieldBits modulus result a b : ℕ) : ℕ :=
  gfMulLoopF fieldBits modulus b result a b

/-- Embedding of `gf_multiply`: validates the field size, then runs the
shift-and-XOR loop. -/
def gf_multiply (a b : ℕ) (fieldBits : ℕ) : Option ℕ :=
  (gfModulus fieldBits).map fun modulus => gfMulLoop fieldBits modulus 0 a b

/-- Fuel-based square-and-multiply loop of `gf_power`; the fuel only bounds
the iteration count and is never exhausted when `fuel = exponent`. -/
def gfPowLoopF (fieldBits modulus : ℕ) : ℕ → ℕ → ℕ → ℕ → ℕ
  | _, result, _, 0 => result
  | 0, result, _, _ + 1 => result
  | fuel + 1, result, base, e + 1 =>
    gfPowLoopF fieldBits modulus fuel
      (if (e + 1) &&& 1 = 1 then gfMulLoop fieldBits modulus 0 result base else result)
      (gfMulLoop fieldBits modulus 0 base base) ((e + 1) / 2)

/-- The square-and-multiply loop of `gf_power`. -/
def gfPowLoop (fieldBits modulus result base exponent : ℕ) : ℕ :=
  gfPowLoopF fieldBits modulus exponent result base exponent

/-- Embedding of `gf_power`: `exponent = 0` returns 1 before any field
validation; otherwise the field size is validated by the first
`gf_multiply` call inside the loop. -/
def gf_power (base exponent : ℕ) (fieldBits : ℕ) : Option ℕ :=
  if exponent = 0 then some 1
  else (gfModulus fieldBits).map fun modulus => gfPowLoop fieldBits modulus 1 base exponent

/-- Embedding of `gf_add`: addition in GF(2^n) is XOR. -/
def gf_add (a b : ℕ) : ℕ := a ^^^ b

/-! ## Polynomial hashing (verification/polynomial_hash.py) -/

/-- Embedding of `compute_polynomial_hash` with `element_bits` defaulting to
`field_bits`: validate inputs, chunk the key into field elements, run
Horner's rule, and finish with one extra multiplication by the salt. -/
def compute_polynomial_hash (key : List ℕ) (salt : ℕ) (fieldBits : ℕ)
    (elementBits : Option ℕ) : Option ℕ :=
  if key = [] then none
  else if salt = 0 then none
  else
    match gfModulus fieldBits with
    | none => none
    | some modulus =>
      let eb := elementBits.getD fieldBits
      match bits_to_field_elements key eb with
      | [] => some 0
      | e0 :: rest =>
        let r := rest.foldl
          (fun result mi => gf_add (gfMulLoop fieldBits modulus 0 result salt) mi) e0
        some (gfMulLoop fieldBits modulus 0 r salt)

/-- The power-sum form of the polynomial hash, written from the spec's
formula `H_r(K) = m_1·r^L + m_2·r^(L-1) + … + m_L·r^1` (with the same
chunking and GF primitives as the implementation), for comparison with
the Horner evaluation in `compute_polynomial_hash`. -/
def polynomialHashSpec (key : List ℕ) (salt : ℕ) (fieldBits : ℕ) : Option ℕ :=
  match gfModulus fieldBits with
  | none => none
  | some modulus =>
    let elements := bits_to_field_elements key fieldBits
    let L := elements.length
    some ((List.range L).foldl
      (fun acc i =>
        gf_add acc
          (gfMulLoop fieldBits modulus 0 (elements.getD i 0)
            (gfPowLoop fieldBits modulus 1 salt (L - i)))) 0)

/-! ## Cascade binary search (reconciliation/simple_cascade.py)

The two parties run `_binary_search` in lockstep on the same block,
exchanging the parity of the left half each round.  The joint execution is
embedded as a single function over both key buffers (`kA` = initiator,
`kB` = responder); one leakage bit is counted per parity comparison, in
each party's counter. -/

/-- Modelled from the spec: `compute_parity` lives in
`reconciliation/utils.py`, which is not among the sources; the spec says a
block's parity is the XOR of its bits. -/
def compute_parity (key : List ℕ) (indices : List ℕ) : ℕ :=
  indices.foldl (fun acc i => acc ^^^ key.getD i 0) 0

/-- The `while right - left > 1` loop of `_binary_search`, run jointly:
compare the two parities of `block[left:mid]` and descend into the half
containing the parity mismatch.  Returns the final `left` and the number
of parity comparisons performed (= leakage bits added on each side). -/
def bsLoop (kA kB block : List ℕ) (left right : ℕ) : ℕ × ℕ :=
  if h : 1 < right - left then
    let mid := (left + right) / 2
    let leftHalf := (block.drop left).take (mid - left)
    let pA := compute_parity kA leftHalf
    let pB := compute_parity kB leftHalf
    if pA ≠ pB then
      let r := bsLoop kA kB block left mid
      (r.1, r.2 + 1)
    else
      let r := bsLoop kA kB block mid right
      (r.1, r.2 + 1)
  else (left, 0)
termination_by right - left
decreasing_by
  · omega
  · omega

/-- A single bit-flip `key[i] ^= 1`, as performed by the initiator. -/
def flipBit (k : List ℕ) (i : ℕ) : List ℕ := k.set i (k.getD i 0 ^^^ 1)

/-- Joint outcome of one `_binary_search` run: both key buffers, the
leakage bits added (identically on both sides), and the corrected index. -/
structure BinarySearchOutcome where
  initiatorKey : List ℕ
  responderKey : List ℕ
  leakage : ℕ
  corrected : Option ℕ
deriving DecidableEq, Repr

/-- Embedding of `SimpleCascadeReconciliator._binary_search` (joint view of
both parties): empty block is a no-op, a singleton block is flipped by the
initiator directly, otherwise binary search localises the error and the
initiator flips it.  The responder's buffer is returned unchanged. -/
def binarySearch (kA kB block : List ℕ) : BinarySearchOutcome :=
  if block.length = 0 then ⟨kA, kB, 0, none⟩
  else if block.length = 1 then
    ⟨flipBit kA (block.getD 0 0), kB, 0, some (block.getD 0 0)⟩
  else
    let r := bsLoop kA kB block 0 block.length
    let errorIdx := block.getD r.1 0
    ⟨flipBit kA errorIdx, kB, r.2, some errorIdx⟩

/-- Embedding of the block-size computation in
`SimpleCascadeReconciliator.__init__`.  The function
`compute_optimal_block_size` (reconciliation/utils.py) is not among the
sources and is passed as a parameter. -/
def initial_block_size (keyLength : ℕ) (initialBlockSize : Option ℤ)
    (estimatedQber : Option ℚ) (computeOptimalBlockSize : ℚ → ℕ) : ℕ :=
  match initialBlockSize with
  | some v => (max 4 v).toNat
  | none =>
    match estimatedQber with
    | some q => if 0 < q then computeOptimalBlockSize q else max 4 (keyLength / 4)
    | none => max 4 (keyLength / 4)

/-! ## Wegman-Carter authentication (auth/wegman_carter.py)

Bytes are lists of naturals; the HMAC-SHA256 digest is abstracted as a
parameter `hm : key → data → digest`. -/

/-- UTF-8 bytes of a string (`str.encode("utf-8")`). -/
def strBytes (s : String) : List ℕ := s.toUTF8.toList.map (fun b => b.toNat)

/-- Embedding of `_bytes_to_bits`: MSB-first bits of each byte. -/
def bytes_to_bits (data : List ℕ) : List ℕ :=
  data.foldr (fun byte acc => ((List.range 8).map fun i => (byte >>> (7 - i)) &&& 1) ++ acc) []

/-- Packing of successive groups of 8 bits into bytes (the loop inside
`_bits_to_bytes`). -/
def bytesFromBits (bits : List ℕ) : List ℕ :=
  if h : bits = [] then []
  else ((bits.take 8).foldl (fun byte bit => (byte <<< 1) ||| bit) 0) :: bytesFromBits (bits.drop 8)
termination_by bits.length
decreasing_by
  have h2 : 0 < bits.length := List.length_pos.mpr h
  simp only [List.length_drop]
  omega

/-- Embedding of `_bits_to_bytes`: zero-pad to a multiple of 8, then pack. -/
def bits_to_bytes (bits : List ℕ) : List ℕ :=
  bytesFromBits (bits ++ List.replicate ((8 - bits.length % 8) % 8) 0)

/-- The counter-mode expansion loop of `_derive_toeplitz_seed`
(`while len(seed_bytes) < needed: seed_bytes += hmac(key, label(counter))`).
Fuel bounds the iteration count; with a digest of 32 bytes per call the
fuel `needed` is never exhausted. -/
def hmacExpandLoop (hm : List ℕ → List ℕ → List ℕ) (key : List ℕ) (needed : ℕ) :
    ℕ → ℕ → List ℕ → List ℕ
  | 0, _, acc => acc
  | fuel + 1, counter, acc =>
    if needed ≤ acc.length then acc
    else hmacExpandLoop hm key needed fuel (counter + 1)
      (acc ++ hm key (strBytes ("toeplitz_seed_" ++ toString counter)))

/-- Embedding of `_derive_toeplitz_seed`. -/
def derive_toeplitz_seed (hm : List ℕ → List ℕ → List ℕ) (key : List ℕ)
    (messageBits tagBits : ℕ) : List ℕ :=
  let seedBitsNeeded := messageBits + tagBits - 1
  let seedBytesNeeded := (seedBitsNeeded + 7) / 8 + 1
  bytes_to_bits ((hmacExpandLoop hm key seedBytesNeeded seedBytesNeeded 0 []).take seedBytesNeeded)

/-- Entry `(i, j)` of the Toeplitz matrix built by
`_construct_toeplitz_matrix` via `scipy.linalg.toeplitz(col, row)` with
`col = seed[:rows]` and `row = seed[rows-1 : rows+cols-1]`. -/
def toeplitzEntry (seed : List ℕ) (rows i j : ℕ) : ℕ :=
  if j ≤ i then seed.getD (i - j) 0 else seed.getD (rows - 1 + (j - i)) 0

/-- Embedding of `_derive_otp_mask`. -/
def derive_otp_mask (hm : List ℕ → List ℕ → List ℕ) (key message : List ℕ)
    (tagBits : ℕ) : List ℕ :=
  (bytes_to_bits (hm key (strBytes "otp_mask_" ++ message))).take tagBits

/-- Elementwise XOR of two one-dimensional numpy arrays
(`hash_result ^ otp_arr`) with numpy's broadcasting rule: defined when the
lengths are equal or either operand has length 1 (which is then broadcast);
any other length mismatch raises a broadcast `ValueError` (here: `none`). -/
def npXorBits (h r : List ℕ) : Option (List ℕ) :=
  if h.length = r.length then some (List.zipWith (fun a b => a ^^^ b) h r)
  else if r.length = 1 then some (h.map fun a => a ^^^ r.getD 0 0)
  else if h.length = 1 then some (r.map fun b => h.getD 0 0 ^^^ b)
  else none

/-- Embedding of `generate_auth_tag`: Toeplitz hash of the message bits,
XORed with a message-derived one-time-pad mask; an empty message gets a
key-only tag.  The XOR `hash_result ^ otp_arr` is a numpy broadcast: when
`tag_bits` exceeds the mask length (one HMAC-SHA256 digest, 256 bits) the
shapes differ and the call raises `ValueError` (here: `none`). -/
def generate_auth_tag (hm : List ℕ → List ℕ → List ℕ) (message key : List ℕ)
    (tagBits : ℕ) : Option (List ℕ) :=
  let messageBits := bytes_to_bits message
  let messageLen := messageBits.length
  if messageLen = 0 then
    some ((hm key (strBytes "empty_message_tag")).take ((tagBits + 7) / 8))
  else
    let seed := derive_toeplitz_seed hm key messageLen tagBits
    let hashResult := (List.range tagBits).map fun i =>
      ((List.range messageLen).foldl
        (fun acc j => acc + toeplitzEntry seed tagBits i j * messageBits.getD j 0) 0) % 2
    let otp := (derive_otp_mask hm key message tagBits).take tagBits
    (npXorBits hashResult otp).map bits_to_bytes

/-- Embedding of `verify_auth_tag`: recompute the tag and compare
(`hmac.compare_digest` is plain equality on equal-content bytes); an
exception from `generate_auth_tag` propagates (`none`). -/
def verify_auth_tag (hm : List ℕ → List ℕ → List ℕ) (message tag key : List ℕ)
    (tagBits : ℕ) : Option Bool :=
  (generate_auth_tag hm message key tagBits).map fun expected => tag == expected

/-! ## Authenticated socket (auth/socket.py)

Payloads are structured Python values; the serializer
(`_serialize_payload`) and HMAC are abstracted as parameters. -/

/-- Structured Python values carried in message payloads. -/
inductive PyVal where
  | pyStr : String → PyVal
  | pyInt : ℤ → PyVal
  | pyBytes : List ℕ → PyVal
  | pyTuple : List PyVal → PyVal
  | pyList : List PyVal → PyVal

/-- A `StructuredMessage`: header string plus payload. -/
structure StructuredMsg where
  header : String
  payload : PyVal

/-- The two failure modes of `recv_structured`. -/
inductive AuthFailure where
  | securityError : AuthFailure
  | integrityError : AuthFailure
deriving DecidableEq, Repr

/-- The envelope-shape check of `recv_structured`: the payload must be a
2-element tuple or list `(payload, tag)`. -/
def envelopeParts (p : PyVal) : Option (PyVal × PyVal) :=
  match p with
  | .pyTuple [a, b] => some (a, b)
  | .pyList [a, b] => some (a, b)
  | _ => none

/-- The data covered by the HMAC: `header_bytes + b"|" + serialized payload`
(124 is the byte of `"|"`). -/
def signedData (ser : PyVal → List ℕ) (header : String) (payload : PyVal) : List ℕ :=
  strBytes header ++ [124] ++ ser payload

/-- Embedding of `AuthenticatedSocket.recv_structured` applied to a received
envelope: shape errors raise `SecurityError`, a tag mismatch raises
`IntegrityError`, otherwise the unwrapped message is returned. -/
def recv_structured (hm : List ℕ → List ℕ → List ℕ) (ser : PyVal → List ℕ)
    (key : List ℕ) (envelope : StructuredMsg) : Except AuthFailure StructuredMsg :=
  match envelopeParts envelope.payload with
  | none => .error .securityError
  | some (payload, tagVal) =>
    match tagVal with
    | .pyBytes receivedTag =>
      let expectedTag := hm key (signedData ser envelope.header payload)
      if receivedTag = expectedTag then .ok ⟨envelope.header, payload⟩
      else .error .integrityError
    | _ => .error .securityError

/-- An envelope is malformed when its payload is not a 2-element pair or the
second component is not bytes (the two `SecurityError` conditions). -/
def malformedEnvelope (p : PyVal) : Bool :=
  match envelopeParts p with
  | none => true
  | some (_, tagVal) =>
    match tagVal with
    | .pyBytes _ => false
    | _ => true

/-! ## Entropy and key length (privacy/entropy.py)

Floating-point arithmetic is idealised over `ℝ`; the comparisons and
branches all happen on exact rational inputs. -/

/-- Embedding of `binary_entropy`: validates `p ∈ [0,1]`, returns 0 at the
endpoints, else `-p·log2 p - (1-p)·log2 (1-p)`. -/
noncomputable def binary_entropy (p : ℚ) : Option ℝ :=
  if p < 0 ∨ 1 < p then none
  else if p ≤ 0 ∨ 1 ≤ p then some 0
  else some (-((p : ℝ) * Real.logb 2 (p : ℝ)) - (1 - (p : ℝ)) * Real.logb 2 (1 - (p : ℝ)))

/-- Embedding of `secrecy_capacity`: `1 - h(qber)`, zero from 0.5 up. -/
noncomputable def secrecy_capacity (qber : ℚ) : Option ℝ :=
  if qber < 0 then none
  else if 1 / 2 ≤ qber then some 0
  else (binary_entropy qber).map fun h => 1 - h

/-- Embedding of `is_qber_secure`: strict comparison against the threshold. -/
def is_qber_secure (qber threshold : ℚ) : Bool := qber < threshold

/-- Embedding of `compute_security_margin`: `2·log2(1/ε)`. -/
noncomputable def compute_security_margin (epsilonSec : ℚ) : Option ℝ :=
  if epsilonSec ≤ 0 ∨ 1 < epsilonSec then none
  else some (2 * Real.logb 2 ((1 / epsilonSec : ℚ) : ℝ))

/-- Embedding of `compute_final_key_length` (Devetak-Winter): after
validation, QBER at or above the 0.11 threshold yields 0; otherwise
`max(0, floor(n·(1-h(q))·f - leak_EC - leak_ver - 2·log2(1/ε)))`. -/
noncomputable def compute_final_key_length (reconciledLength : ℤ) (qber : ℚ)
    (leakageEc leakageVer : ℤ) (epsilonSec : ℚ) (efficiencyFactor : ℚ) : Option ℤ :=
  if reconciledLength < 0 then none
  else if qber < 0 ∨ 1 / 2 < qber then none
  else if leakageEc < 0 then none
  else if leakageVer < 0 then none
  else if epsilonSec ≤ 0 ∨ 1 < epsilonSec then none
  else if efficiencyFactor ≤ 0 ∨ 1 < efficiencyFactor then none
  else if ¬ is_qber_secure qber (11 / 100) then some 0
  else
    match compute_security_margin epsilonSec, secrecy_capacity qber with
    | some margin, some cap =>
      some (max 0 ⌊(reconciledLength : ℝ) * cap * (efficiencyFactor : ℝ)
        - (leakageEc : ℝ) - (leakageVer : ℝ) - margin⌋)
    | _, _ => none

/-! ## Privacy amplification (privacy/amplifier.py, privacy/utils.py) -/

/-- Embedding of `compute_seed_length` (privacy/utils.py): validates the
dimensions and returns `input + output - 1`. -/
def compute_seed_length (inputLength outputLength : ℤ) : Option ℤ :=
  if inputLength ≤ 0 then none
  else if outputLength ≤ 0 then none
  else if inputLength < outputLength then none
  else some (inputLength + outputLength - 1)

/-- Embedding of `validate_toeplitz_seed`: length check plus all bits in
`{0, 1}`. -/
def validate_toeplitz_seed (seed : List ℕ) (keyLength finalLength : ℤ) : Option Bool :=
  (compute_seed_length keyLength finalLength).map fun expected =>
    ((seed.length : ℤ) == expected) && seed.all (fun bit => bit == 0 || bit == 1)

/-- Entry `(i, j)` of the amplification Toeplitz matrix built inside
`PrivacyAmplifier.amplify` from `col = seed[:new_length]` and
`row = seed[new_length-1 : new_length-1+len(key)]`. -/
def amplifyToeplitzEntry (seed : List ℕ) (newLength i j : ℕ) : ℕ :=
  if j ≤ i then seed.getD (i - j) 0 else seed.getD (newLength - 1 + (j - i)) 0

/-- Embedding of `PrivacyAmplifier.amplify`: validates the inputs and
returns `(T · key) mod 2` (the `uint8` matmul wraps modulo 256, which does
not affect the subsequent `% 2`). -/
def amplify (key toeplitzSeed : List ℕ) (newLength : ℤ) : Option (List ℕ) :=
  if key = [] then none
  else if newLength ≤ 0 then none
  else if (key.length : ℤ) < newLength then none
  else if (toeplitzSeed.length : ℤ) ≠ (key.length : ℤ) + newLength - 1 then none
  else
    some ((List.range newLength.toNat).map fun i =>
      ((List.range key.length).foldl
        (fun acc j => acc + amplifyToeplitzEntry toeplitzSeed newLength.toNat i j * key.getD j 0)
        0) % 2)

/-- Embedding of `AmplificationResult`. -/
structure AmplificationResult where
  secretKey : List ℕ
  inputLength : ℕ
  outputLength : ℤ
  compressionRatio : ℚ
  toeplitzSeed : Option (List ℕ)
  success : Bool
  errorMessage : Option String
  leakageEc : ℤ
  leakageVer : ℤ
  qber : ℚ
  securityParameter : ℚ

/-- Embedding of `PrivacyAmplifier.amplify_with_result`:  threshold check,
output-length computation, seed generation/validation, then amplification
with exceptions from `amplify` caught into a failure result.  `genSeed`
abstracts `generate_toeplitz_seed`'s randomness; `none` models an
uncaught `ValueError` propagating to the caller. -/
noncomputable def amplify_with_result (epsilonSec : ℚ) (genSeed : ℕ → ℤ → List ℕ)
    (key : List ℕ) (qber : ℚ) (leakageEc leakageVer : ℤ)
    (toeplitzSeed : Option (List ℕ)) : Option AmplificationResult :=
  let inputLength := key.length
  if ¬ is_qber_secure qber (11 / 100) then
    some ⟨[], inputLength, 0, 0, none, false, some "QBER exceeds threshold",
      leakageEc, leakageVer, qber, epsilonSec⟩
  else
    match compute_final_key_length (inputLength : ℤ) qber leakageEc leakageVer epsilonSec 1 with
    | none => none
    | some outputLength =>
      if outputLength ≤ 0 then
        some ⟨[], inputLength, 0, 0, none, false, some "Computed output length is zero or negative",
          leakageEc, leakageVer, qber, epsilonSec⟩
      else
        match toeplitzSeed with
        | none =>
          let seed := genSeed inputLength outputLength
          match amplify key seed outputLength with
          | none =>
            some ⟨[], inputLength, outputLength, 0, some seed, false,
              some "Amplification failed", leakageEc, leakageVer, qber, epsilonSec⟩
          | some secretKey =>
            some ⟨secretKey, inputLength, outputLength,
              (outputLength : ℚ) / (inputLength : ℚ), some seed, true, none,
              leakageEc, leakageVer, qber, epsilonSec⟩
        | some seed =>
          match validate_toeplitz_seed seed (inputLength : ℤ) outputLength with
          | none => none
          | some ok =>
            if ¬ ok then
              some ⟨[], inputLength, outputLength, 0, some seed, false,
                some "Invalid Toeplitz seed", leakageEc, leakageVer, qber, epsilonSec⟩
            else
              match amplify key seed outputLength with
              | none =>
                some ⟨[], inputLength, outputLength, 0, some seed, false,
                  some "Amplification failed", leakageEc, leakageVer, qber, epsilonSec⟩
              | some secretKey =>
                some ⟨secretKey, inputLength, outputLength,
                  (outputLength : ℚ) / (inputLength : ℚ), some seed, true, none,
                  leakageEc, leakageVer, qber, epsilonSec⟩

/-! ## Mathematical model of GF(2^n): polynomials over ZMod 2

The shift-and-XOR loops are related to arithmetic in
`(ZMod 2)[X] / (X^n + m(X))`.  `encode` reads a natural number as the
polynomial whose coefficients are its bits. -/

/-- The polynomial over `ZMod 2` whose coefficient of `X^i` is bit `i`. -/
noncomputable def encode (a : ℕ) : Polynomial (ZMod 2) :=
  if h : a = 0 then 0
  else Polynomial.C ((a % 2 : ℕ) : ZMod 2) + Polynomial.X * encode (a / 2)
termination_by a
decreasing_by exact Nat.div_lt_self (Nat.pos_of_ne_zero h) one_lt_two

/-- The reduction polynomial `X^n + m(X)` determined by the field size and
the feedback constant (`0x1B` for n = 64, `0x87` for n = 128). -/
noncomputable def redPoly (fieldBits modulus : ℕ) : Polynomial (ZMod 2) :=
  Polynomial.X ^ fieldBits + encode modulus

/-- The ideal generated by the reduction polynomial. -/
noncomputable def gfIdeal (fieldBits modulus : ℕ) : Ideal (Polynomial (ZMod 2)) :=
  Ideal.span {redPoly fieldBits modulus}

/-- Projection of an encoded natural into the quotient ring
`(ZMod 2)[X] / (X^n + m(X))`. -/
noncomputable def gfProj (fieldBits modulus a : ℕ) :
    Polynomial (ZMod 2) ⧸ gfIdeal fieldBits modulus :=
  Ideal.Quotient.mk (gfIdeal fieldBits modulus) (encode a)

end QKD

namespace QKD

/-! ## Unfolding equations for the fuel-based loops -/

theorem gfMulLoopF_fuel (fieldBits modulus : ℕ) :
    ∀ fuel1 fuel2 result a b, b ≤ fuel1 → b ≤ fuel2 →
      gfMulLoopF fieldBits modulus fuel1 result a b
        = gfMulLoopF fieldBits modulus fuel2 result a b := by
  intro fuel1
  induction fuel1 with
  | zero =>
    intro fuel2 result a b h1 h2
    have hb : b = 0 := by omega
    subst hb
    cases fuel2 <;> rfl
  | succ f1 ih =>
    intro fuel2 result a b h1 h2
    cases b with
    | zero => cases fuel2 <;> rfl
    | succ b =>
      cases fuel2 with
      | zero => omega
      | succ f2 =>
        show gfMulLoopF fieldBits modulus f1
            (if (b + 1) &&& 1 = 1 then result ^^^ a else result)
            (gfDouble fieldBits modulus a) ((b + 1) / 2)
          = gfMulLoopF fieldBits modulus f2
            (if (b + 1) &&& 1 = 1 then result ^^^ a else result)
            (gfDouble fieldBits modulus a) ((b + 1) / 2)
        exact ih f2 _ _ _ (by omega) (by omega)

theorem gfMulLoop_eq (fieldBits modulus result a b : ℕ) :
    gfMulLoop fieldBits modulus result a b
      = if b = 0 then result
        else gfMulLoop fieldBits modulus
          (if b &&& 1 = 1 then result ^^^ a else result)
          (gfDouble fieldBits modulus a) (b / 2) := by
  cases b with
  | zero => rfl
  | succ b =>
    rw [if_neg (Nat.succ_ne_zero b)]
    exact gfMulLoopF_fuel fieldBits modulus b ((b + 1) / 2) _ _ ((b + 1) / 2)
      (by omega) le_rfl

theorem gfPowLoopF_fuel (fieldBits modulus : ℕ) :
    ∀ fuel1 fuel2 result base e, e ≤ fuel1 → e ≤ fuel2 →
      gfPowLoopF fieldBits modulus fuel1 result base e
        = gfPowLoopF fieldBits modulus fuel2 result base e := by
  intro fuel1
  induction fuel1 with
  | zero =>
    intro fuel2 result base e h1 h2
    have he : e = 0 := by omega
    subst he
    cases fuel2 <;> rfl
  | succ f1 ih =>
    intro fuel2 result base e h1 h2
    cases e with
    | zero => cases fuel2 <;> rfl
    | succ e =>
      cases fuel2 with
      | zero => omega
      | succ f2 =>
        show gfPowLoopF fieldBits modulus f1
            (if (e + 1) &&& 1 = 1 then gfMulLoop fieldBits modulus 0 result base else result)
            (gfMulLoop fieldBits modulus 0 base base) ((e + 1) / 2)
          = gfPowLoopF fieldBits modulus f2
            (if (e + 1) &&& 1 = 1 then gfMulLoop fieldBits modulus 0 result base else result)
            (gfMulLoop fieldBits modulus 0 base base) ((e + 1) / 2)
        exact ih f2 _ _ _ (by omega) (by omega)

theorem gfPowLoop_eq (fieldBits modulus result base exponent : ℕ) :
    gfPowLoop fieldBits modulus result base exponent
      = if exponent = 0 then result
        else gfPowLoop fieldBits modulus
          (if exponent &&& 1 = 1 then gfMulLoop fieldBits modulus 0 result base else result)
          (gfMulLoop fieldBits modulus 0 base base) (exponent / 2) := by
  cases exponent with
  | zero => rfl
  | succ e =>
    rw [if_neg (Nat.succ_ne_zero e)]
    exact gfPowLoopF_fuel fieldBits modulus e ((e + 1) / 2) _ _ ((e + 1) / 2)
      (by omega) le_rfl

theorem chunksGoF_fuel (cs : ℕ) :
    ∀ fuel1 fuel2 (l : List ℕ), l.length ≤ fuel1 → l.length ≤ fuel2 →
      chunksGoF cs fuel1 l = chunksGoF cs fuel2 l := by
  intro fuel1
  induction fuel1 with
  | zero =>
    intro fuel2 l h1 h2
    have hl : l = [] := List.eq_nil_of_length_eq_zero (by omega)
    subst hl
    cases fuel2 <;> rfl
  | succ f1 ih =>
    intro fuel2 l h1 h2
    cases l with
    | nil => cases fuel2 <;> rfl
    | cons a l =>
      cases fuel2 with
      | zero => simp at h2
      | succ f2 =>
        show (if cs = 0 then []
            else padChunk cs ((a :: l).take cs) :: chunksGoF cs f1 ((a :: l).drop cs))
          = (if cs = 0 then []
            else padChunk cs ((a :: l).take cs) :: chunksGoF cs f2 ((a :: l).drop cs))
        by_cases hcs : cs = 0
        · rw [if_pos hcs, if_pos hcs]
        · rw [if_neg hcs, if_neg hcs]
          have hlen : ((a :: l).drop cs).length ≤ f1 := by
            simp only [List.length_drop, List.length_cons]
            simp only [List.length_cons] at h1
            omega
          have hlen2 : ((a :: l).drop cs).length ≤ f2 := by
            simp only [List.length_drop, List.length_cons]
            simp only [List.length_cons] at h2
            omega
          rw [ih f2 _ hlen hlen2]

theorem chunksGo_eq (cs : ℕ) (l : List ℕ) :
    chunksGo cs l
      = if l = [] ∨ cs = 0 then []
        else padChunk cs (l.take cs) :: chunksGo cs (l.drop cs) := by
  cases l with
  | nil => rw [if_pos (Or.inl rfl)]; rfl
  | cons a l =>
    by_cases hcs : cs = 0
    · rw [if_pos (Or.inr hcs)]
      show (if cs = 0 then []
          else padChunk cs ((a :: l).take cs) :: chunksGoF cs l.length ((a :: l).drop cs))
        = []
      rw [if_pos hcs]
    · rw [if_neg (by
        rintro (h | h)
        · exact (List.cons_ne_nil a l) h
        · exact hcs h)]
      show (if cs = 0 then []
          else padChunk cs ((a :: l).take cs) :: chunksGoF cs l.length ((a :: l).drop cs))
        = _
      rw [if_neg hcs]
      congr 1
      exact chunksGoF_fuel cs l.length ((a :: l).drop cs).length _
        (by simp only [List.length_drop, List.length_cons]; omega) le_rfl

/-! ## Claim C10: constructor block-size floor -/

/-- C10: the `SimpleCascadeReconciliator` constructor establishes an initial
block size of at least 4: a caller-supplied `initial_block_size` is
silently replaced by `max(4, value)` with no validation error, and with no
block size and no positive estimated QBER the result is
`max(4, len(key) // 4)`. -/
theorem initialBlockSize_min_four :
    (∀ (len : ℕ) (q : Option ℚ) (opt : ℚ → ℕ) (v : ℤ),
        initial_block_size len (some v) q opt = (max 4 v).toNat
          ∧ 4 ≤ initial_block_size len (some v) q opt)
    ∧ (∀ (len : ℕ) (opt : ℚ → ℕ),
        initial_block_size len none none opt = max 4 (len / 4)
          ∧ 4 ≤ initial_block_size len none none opt)
    ∧ (∀ (len : ℕ) (opt : ℚ → ℕ) (q : ℚ), ¬ 0 < q →
        initial_block_size len none (some q) opt = max 4 (len / 4)
          ∧ 4 ≤ initial_block_size len none (some q) opt) := by
  refine ⟨fun len q opt v => ⟨rfl, ?_⟩, fun len opt => ⟨rfl, le_max_left 4 _⟩,
    fun len opt q hq => ?_⟩
  · simp only [initial_block_size]
    omega
  · have heq : initial_block_size len none (some q) opt = max 4 (len / 4) := by
      simp [initial_block_size, hq]
    exact ⟨heq, heq ▸ le_max_left 4 _⟩

/-- Witness for `initialBlockSize_min_four` at concrete inputs: a supplied
block size of 1 becomes 4, and a zero estimated QBER falls back to
`max 4 (40 / 4) = 10`. -/
theorem initialBlockSize_min_four_witness :
    initial_block_size 40 (some 1) none (fun _ => 0) = 4
      ∧ ¬ (0 : ℚ) < 0
      ∧ initial_block_size 40 none (some 0) (fun _ => 0) = 10 := by
  refine ⟨?_, by norm_num, ?_⟩
  · have h := (initialBlockSize_min_four.1 40 none (fun _ => 0) 1).1
    simpa using h
  · have h := (initialBlockSize_min_four.2.2 40 (fun _ => 0) 0 (by norm_num)).1
    simpa using h

/-! ## Claim C5: Wegman-Carter tag round-trip -/

theorem bytes_to_bits_length (l : List ℕ) : (bytes_to_bits l).length = 8 * l.length := by
  induction l with
  | nil => rfl
  | cons b l ih =>
    simp only [bytes_to_bits, List.foldr_cons, List.length_append, List.length_map,
      List.length_range, List.length_cons] at *
    omega

theorem npXorBits_isSome (h r : List ℕ) (hh : h.length = r.length) :
    ∃ t, npXorBits h r = some t := by
  refine ⟨List.zipWith (fun a b => a ^^^ b) h r, ?_⟩
  simp [npXorBits, hh]

theorem npXorBits_none (h r : List ℕ) (hne : h.length ≠ r.length)
    (h1 : h.length ≠ 1) (r1 : r.length ≠ 1) : npXorBits h r = none := by
  simp [npXorBits, hne, h1, r1]

theorem opt_map_isSome {α β : Type} (f : α → β) (o : Option α) (h : ∃ a, o = some a) :
    ∃ b, o.map f = some b := by
  obtain ⟨a, ha⟩ := h
  exact ⟨f a, by rw [ha]; rfl⟩

/-- C5 (amended): for every message, key and tag width at most the 256-bit
OTP mask (one HMAC-SHA256 digest, 32 bytes), `generate_auth_tag` returns a
tag without raising, and that tag is accepted by `verify_auth_tag` (which
recomputes the same deterministic construction and compares). -/
theorem verify_generate_auth_tag :
    ∀ (hm : List ℕ → List ℕ → List ℕ) (message key : List ℕ) (tagBits : ℕ),
      (hm key (strBytes "otp_mask_" ++ message)).length = 32 →
      tagBits ≤ 256 →
      ∃ t, generate_auth_tag hm message key tagBits = some t
        ∧ verify_auth_tag hm message t key tagBits = some true := by
  intro hm message key tagBits hd hle
  have hg : ∃ t, generate_auth_tag hm message key tagBits = some t := by
    simp only [generate_auth_tag]
    by_cases h0 : (bytes_to_bits message).length = 0
    · rw [if_pos h0]
      exact ⟨_, rfl⟩
    · rw [if_neg h0]
      refine opt_map_isSome bits_to_bytes _ (npXorBits_isSome _ _ ?_)
      simp only [List.length_map, List.length_range, List.length_take, derive_otp_mask,
        bytes_to_bits_length, hd]
      omega
  obtain ⟨t, ht⟩ := hg
  refine ⟨t, ht, ?_⟩
  simp only [verify_auth_tag]
  rw [ht]
  simp

/-- Witness for `verify_generate_auth_tag`: a one-byte message, an
all-zeros 32-byte digest function and the default 64-bit tag width. -/
theorem verify_generate_auth_tag_witness :
    ((fun (_ _ : List ℕ) => List.replicate 32 (0:ℕ)) [] (strBytes "otp_mask_" ++ [1])).length = 32
    ∧ (64 : ℕ) ≤ 256
    ∧ ∃ t, generate_auth_tag (fun _ _ => List.replicate 32 0) [1] [] 64 = some t
        ∧ verify_auth_tag (fun _ _ => List.replicate 32 0) [1] t [] 64 = some true :=
  ⟨by decide, by decide,
    verify_generate_auth_tag (fun _ _ => List.replicate 32 0) [1] [] 64 (by decide) (by decide)⟩

/-- C5 counterexample: the claim quantifies over every `tag_bits`, but for
`tag_bits = 257` and a non-empty message the Toeplitz hash has 257 entries
while the OTP mask has only 256 (one HMAC-SHA256 digest), so the numpy XOR
raises a broadcast `ValueError` instead of returning a tag, and the
round trip raises rather than returning `True`. -/
theorem verify_generate_auth_tag_counterexample :
    generate_auth_tag (fun _ _ => List.replicate 32 0) [1] [] 257 = none
    ∧ verify_auth_tag (fun _ _ => List.replicate 32 0) [1] [] [] 257 = none := by
  have hg : generate_auth_tag (fun _ _ => List.replicate 32 0) [1] [] 257 = none := by
    simp only [generate_auth_tag]
    rw [if_neg (by decide)]
    rw [npXorBits_none _ _ ?_ ?_ ?_]
    · rfl
    · simp only [List.length_map, List.length_range, List.length_take, derive_otp_mask,
        bytes_to_bits_length, List.length_replicate]
      omega
    · simp only [List.length_map, List.length_range]
      omega
    · simp only [List.length_take, derive_otp_mask, bytes_to_bits_length,
        List.length_replicate]
      omega
  refine ⟨hg, ?_⟩
  simp only [verify_auth_tag]
  rw [hg]
  rfl

/-! ## Claim C7: authenticated receive errors -/

/-- C7: `recv_structured` raises `SecurityError` exactly on malformed
envelopes (payload not a 2-element pair, or tag not bytes), raises
`IntegrityError` exactly when the envelope is well-formed but the
recomputed HMAC differs from the received tag, and otherwise returns the
unwrapped message with the original header and payload. -/
theorem recv_structured_spec (hm : List ℕ → List ℕ → List ℕ)
    (ser : PyVal → List ℕ) (key : List ℕ) (envelope : StructuredMsg) :
    (recv_structured hm ser key envelope = .error .securityError
        ↔ malformedEnvelope envelope.payload = true)
    ∧ (recv_structured hm ser key envelope = .error .integrityError
        ↔ ∃ payload tag, envelopeParts envelope.payload = some (payload, .pyBytes tag)
            ∧ tag ≠ hm key (signedData ser envelope.header payload))
    ∧ (∀ payload tag, envelopeParts envelope.payload = some (payload, .pyBytes tag) →
        tag = hm key (signedData ser envelope.header payload) →
        recv_structured hm ser key envelope = .ok ⟨envelope.header, payload⟩) := by
  rcases hp : envelopeParts envelope.payload with _ | ⟨payload, tagVal⟩
  · simp only [recv_structured, malformedEnvelope, hp]
    refine ⟨by simp, by simp, ?_⟩
    intro p2 t2 h2
    simp at h2
  · simp only [recv_structured, malformedEnvelope, hp]
    cases tagVal with
    | pyBytes tag =>
      dsimp only
      by_cases ht : tag = hm key (signedData ser envelope.header payload)
      · refine ⟨by simp [ht], ?_, ?_⟩
        · rw [if_pos ht]
          constructor
          · intro h; exact absurd h (by simp)
          · rintro ⟨p2, t2, h2, hne⟩
            simp only [Option.some.injEq, Prod.mk.injEq, PyVal.pyBytes.injEq] at h2
            obtain ⟨h3, h4⟩ := h2
            subst h3; subst h4
            exact absurd ht hne
        · intro p2 t2 h2 _
          simp only [Option.some.injEq, Prod.mk.injEq, PyVal.pyBytes.injEq] at h2
          obtain ⟨h3, h4⟩ := h2
          subst h3; subst h4
          rw [if_pos ht]
      · refine ⟨by simp [ht], ?_, ?_⟩
        · rw [if_neg ht]
          exact ⟨fun _ => ⟨payload, tag, rfl, ht⟩, fun _ => rfl⟩
        · intro p2 t2 h2 heq
          simp only [Option.some.injEq, Prod.mk.injEq, PyVal.pyBytes.injEq] at h2
          obtain ⟨h3, h4⟩ := h2
          subst h3; subst h4
          exact absurd heq ht
    | pyStr s => exact ⟨by simp, by simp, fun p2 t2 h2 _ => by simp at h2⟩
    | pyInt n => exact ⟨by simp, by simp, fun p2 t2 h2 _ => by simp at h2⟩
    | pyTuple l => exact ⟨by simp, by simp, fun p2 t2 h2 _ => by simp at h2⟩
    | pyList l => exact ⟨by simp, by simp, fun p2 t2 h2 _ => by simp at h2⟩

/-- Witness for `recv_structured_spec`: a well-formed envelope whose tag
matches the recomputed HMAC (with a concrete digest function) is unwrapped
to the original header and payload. -/
theorem recv_structured_spec_witness :
    envelopeParts (PyVal.pyTuple [PyVal.pyInt 7, PyVal.pyBytes [3]])
        = some (PyVal.pyInt 7, PyVal.pyBytes [3])
      ∧ recv_structured (fun _ _ => [3]) (fun _ => []) []
          ⟨"H", PyVal.pyTuple [PyVal.pyInt 7, PyVal.pyBytes [3]]⟩
        = .ok ⟨"H", PyVal.pyInt 7⟩ := by
  refine ⟨rfl, ?_⟩
  exact (recv_structured_spec (fun _ _ => [3]) (fun _ => []) []
    ⟨"H", PyVal.pyTuple [PyVal.pyInt 7, PyVal.pyBytes [3]]⟩).2.2 (PyVal.pyInt 7) [3] rfl rfl

/-! ## Claim C6: amplifier determinism, output bound, graceful failure -/

/-- C6: `PrivacyAmplifier.amplify` is a pure function of its arguments
(identical inputs give identical outputs), its output never exceeds the
input key length (`new_length > len(key)` is rejected), and
`amplify_with_result` returns a failure record with empty `secret_key` and
`success = False` (rather than an exception) whenever QBER is at or above
the 0.11 threshold or the computed output length is zero. -/
theorem amplify_deterministic_bounded_graceful :
    (∀ (key seed : List ℕ) (n : ℤ), amplify key seed n = amplify key seed n)
    ∧ (∀ (key seed : List ℕ) (n : ℤ) (out : List ℕ),
        amplify key seed n = some out → out.length ≤ key.length)
    ∧ (∀ (eps : ℚ) (genSeed : ℕ → ℤ → List ℕ) (key : List ℕ) (qber : ℚ)
        (lec lver : ℤ) (seed : Option (List ℕ)),
        ((¬ qber < 11 / 100) ∨
          compute_final_key_length (key.length : ℤ) qber lec lver eps 1 = some 0) →
        ∃ r, amplify_with_result eps genSeed key qber lec lver seed = some r
          ∧ r.success = false ∧ r.secretKey = []) := by
  refine ⟨fun _ _ _ => rfl, ?_, ?_⟩
  · intro key seed n out h
    simp only [amplify] at h
    split_ifs at h with h1 h2 h3 h4 <;> simp at h
    subst h
    simp only [List.length_map, List.length_range]
    omega
  · intro eps genSeed key qber lec lver seed hyp
    by_cases hq : qber < 11 / 100
    · rcases hyp with hq2 | hzero
      · exact absurd hq hq2
      · simp only [amplify_with_result]
        rw [if_neg (by simp [is_qber_secure, hq]), hzero]
        exact ⟨_, rfl, rfl, rfl⟩
    · simp only [amplify_with_result]
      rw [if_pos (by simp [is_qber_secure, hq])]
      exact ⟨_, rfl, rfl, rfl⟩

/-- Witness for `amplify_deterministic_bounded_graceful` at a concrete
input: QBER exactly at the 0.11 threshold yields a graceful failure
record. -/
theorem amplify_deterministic_bounded_graceful_witness :
    ((¬ (11 / 100 : ℚ) < 11 / 100) ∨
      compute_final_key_length ((([] : List ℕ).length : ℤ)) (11 / 100) 0 0 (1 / 2) 1 = some 0)
    ∧ ∃ r, amplify_with_result (1 / 2) (fun _ _ => []) [] (11 / 100) 0 0 none = some r
        ∧ r.success = false ∧ r.secretKey = [] := by
  have h : (¬ (11 / 100 : ℚ) < 11 / 100) ∨
      compute_final_key_length ((([] : List ℕ).length : ℤ)) (11 / 100) 0 0 (1 / 2) 1 = some 0 :=
    Or.inl (by norm_num)
  exact ⟨h, amplify_deterministic_bounded_graceful.2.2 (1 / 2) (fun _ _ => []) [] (11 / 100)
    0 0 none h⟩

/-! ## Cascade binary search: helper lemmas -/

theorem xor_foldl_init (f : ℕ → ℕ) (l : List ℕ) (a : ℕ) :
    l.foldl (fun acc i => acc ^^^ f i) a = a ^^^ l.foldl (fun acc i => acc ^^^ f i) 0 := by
  induction l generalizing a with
  | nil => simp
  | cons i l ih =>
    simp only [List.foldl_cons]
    rw [ih (a ^^^ f i), ih (0 ^^^ f i), Nat.zero_xor, Nat.xor_assoc]

theorem compute_parity_xor (kA kB : List ℕ) (idx : List ℕ) :
    compute_parity kA idx ^^^ compute_parity kB idx
      = idx.foldl (fun acc i => acc ^^^ (kA.getD i 0 ^^^ kB.getD i 0)) 0 := by
  induction idx with
  | nil => simp [compute_parity]
  | cons i l ih =>
    simp only [compute_parity, List.foldl_cons] at ih ⊢
    rw [xor_foldl_init (fun i => kA.getD i 0), xor_foldl_init (fun i => kB.getD i 0),
      xor_foldl_init (fun i => kA.getD i 0 ^^^ kB.getD i 0)]
    simp only [Nat.zero_xor]
    rw [← ih]
    have comm4 : ∀ w x y z : ℕ, (w ^^^ x) ^^^ (y ^^^ z) = (w ^^^ y) ^^^ (x ^^^ z) := by
      intro w x y z
      rw [Nat.xor_assoc, Nat.xor_assoc]
      congr 1
      rw [← Nat.xor_assoc, ← Nat.xor_assoc, Nat.xor_comm x y]
    exact comm4 _ _ _ _

theorem xor_foldl_zero (d : ℕ → ℕ) (l : List ℕ) (h : ∀ j ∈ l, d j = 0) :
    l.foldl (fun acc i => acc ^^^ d i) 0 = 0 := by
  induction l with
  | nil => rfl
  | cons i l ih =>
    simp only [List.foldl_cons, Nat.zero_xor]
    rw [h i (List.mem_cons_self i l), xor_foldl_init]
    rw [ih fun j hj => h j (List.mem_cons_of_mem i hj)]
    rfl

/-- Parity difference over an index list when the two keys differ at most at
position `p`: it is the bit difference at `p` when `p` occurs (once), else
zero. -/
theorem parity_diff (kA kB : List ℕ) (p : ℕ)
    (hag : ∀ j, j ≠ p → kA.getD j 0 = kB.getD j 0) (idx : List ℕ)
    (hcount : idx.count p ≤ 1) :
    compute_parity kA idx ^^^ compute_parity kB idx
      = if p ∈ idx then kA.getD p 0 ^^^ kB.getD p 0 else 0 := by
  rw [compute_parity_xor]
  induction idx with
  | nil => simp
  | cons i l ih =>
    simp only [List.foldl_cons, Nat.zero_xor]
    rw [xor_foldl_init]
    by_cases hip : i = p
    · subst hip
      have hnotmem : i ∉ l := by
        rw [List.count_cons_self] at hcount
        exact List.count_eq_zero.mp (by omega)
      rw [xor_foldl_zero _ _ fun j hj => by
        have hjne : j ≠ i := fun hji => hnotmem (hji ▸ hj)
        rw [hag j hjne, Nat.xor_self]]
      simp [List.mem_cons]
    · rw [hag i hip, Nat.xor_self, Nat.zero_xor]
      have hcount2 : l.count p ≤ 1 := by
        rw [List.count_cons_of_ne (fun hpi => hip hpi.symm)] at hcount
        exact hcount
      rw [ih hcount2]
      have hmemiff : (p ∈ i :: l) ↔ (p ∈ l) := by
        constructor
        · intro h
          rcases List.mem_cons.mp h with h | h
          · exact absurd h.symm hip
          · exact h
        · exact fun h => List.mem_cons_of_mem i h
      simp only [hmemiff]

/-- Membership of the unique occurrence `p = block[q]` in the slice
`block[s : s+n]`, for a `Nodup` block. -/
theorem mem_slice_iff (block : List ℕ) (p q s n : ℕ) (hnd : block.Nodup)
    (hq : q < block.length) (hget : block.get ⟨q, hq⟩ = p) :
    p ∈ (block.drop s).take n ↔ s ≤ q ∧ q < s + n := by
  constructor
  · intro hmem
    obtain ⟨i, hi, hgi⟩ := List.mem_iff_getElem.mp hmem
    have hi2 : i < n := lt_of_lt_of_le hi (by simp [List.length_take])
    have hi3 : s + i < block.length := by
      have := hi
      simp only [List.length_take, List.length_drop] at this
      omega
    have h1 : ((block.drop s).take n)[i]? = some p := by
      rw [List.getElem?_eq_getElem hi, hgi]
    rw [List.getElem?_take_of_lt hi2, List.getElem?_drop] at h1
    have h2 := List.getElem?_eq_getElem hi3
    rw [h1] at h2
    have hval : block.get ⟨s + i, hi3⟩ = p := by
      simpa using ((Option.some.injEq _ _).mp h2).symm
    have h5 : (⟨s + i, hi3⟩ : Fin block.length) = ⟨q, hq⟩ :=
      (List.Nodup.get_inj_iff hnd).mp (by rw [hval, hget])
    have heq : s + i = q := congrArg Fin.val h5
    omega
  · rintro ⟨h1, h2⟩
    have hlen : q - s < ((block.drop s).take n).length := by
      simp only [List.length_take, List.length_drop]
      omega
    refine List.mem_iff_getElem.mpr ⟨q - s, hlen, ?_⟩
    have h3 : ((block.drop s).take n)[q - s]? = block[q]? := by
      rw [List.getElem?_take_of_lt (by omega), List.getElem?_drop]
      congr 1
      omega
    have h4 : block[q]? = some p := by
      rw [List.getElem?_eq_getElem hq]
      simpa using hget
    have h5 := List.getElem?_eq_getElem hlen
    rw [h3, h4] at h5
    exact ((Option.some.injEq _ _).mp h5).symm

/-- Slices of a `Nodup` list contain any element at most once. -/
theorem slice_count_le_one (block : List ℕ) (p s n : ℕ) (hnd : block.Nodup) :
    ((block.drop s).take n).count p ≤ 1 := by
  have : ((block.drop s).take n).Nodup :=
    ((List.take_sublist _ _).trans (List.drop_sublist _ _)).nodup hnd
  exact List.nodup_iff_count_le_one.mp this p

theorem flipBit_getD_ne (k : List ℕ) (i j : ℕ) (hij : j ≠ i) :
    (flipBit k i).getD j 0 = k.getD j 0 := by
  simp [flipBit, List.getD_eq_getElem?_getD, List.getElem?_set_ne (fun h => hij h.symm)]

theorem flipBit_getD_self (k : List ℕ) (i : ℕ) (hi : i < k.length) :
    (flipBit k i).getD i 0 = k.getD i 0 ^^^ 1 := by
  simp [flipBit, List.getD_eq_getElem?_getD, List.getElem?_set_self hi]

theorem xor_one_ne (x : ℕ) : x ^^^ 1 ≠ x := by
  intro h
  have h2 : x ^^^ (x ^^^ 1) = x ^^^ x := by rw [h]
  rw [← Nat.xor_assoc, Nat.xor_self, Nat.zero_xor] at h2
  exact one_ne_zero h2

theorem bit_flip_eq (x y : ℕ) (hx : x ≤ 1) (hy : y ≤ 1) (hxy : x ≠ y) : x ^^^ 1 = y := by
  interval_cases x <;> interval_cases y <;> simp_all

/-- The binary-search loop localizes the unique differing position: its
final `left` is the position of `p` in the block, its comparison count is
at most `clog 2` of the interval size, with equality for power-of-two
sizes. -/
theorem bsLoop_localizes (kA kB block : List ℕ) (p q : ℕ)
    (hnd : block.Nodup) (hq : q < block.length)
    (hget : block.get ⟨q, hq⟩ = p)
    (hdiff : kA.getD p 0 ≠ kB.getD p 0)
    (hag : ∀ j, j ≠ p → kA.getD j 0 = kB.getD j 0) :
    ∀ n left right, right - left ≤ n → left ≤ q → q < right → right ≤ block.length →
      (bsLoop kA kB block left right).1 = q
      ∧ (bsLoop kA kB block left right).2 ≤ Nat.clog 2 (right - left)
      ∧ (∀ k, right - left = 2 ^ k → (bsLoop kA kB block left right).2 = k) := by
  intro n
  induction n with
  | zero => intro left right h1 h2 h3 _; omega
  | succ n ih =>
    intro left right h1 h2 h3 h4
    by_cases hlr : 1 < right - left
    · have hmid1 : left < (left + right) / 2 := by omega
      have hmid2 : (left + right) / 2 < right := by omega
      set mid := (left + right) / 2 with hmiddef
      have hcond : (compute_parity kA ((block.drop left).take (mid - left))
            ≠ compute_parity kB ((block.drop left).take (mid - left))) ↔ (q < mid) := by
        set half := (block.drop left).take (mid - left) with hhalf
        have hd := parity_diff kA kB p hag half
          (hhalf ▸ slice_count_le_one block p left (mid - left) hnd)
        have hmem := mem_slice_iff block p q left (mid - left) hnd hq hget
        constructor
        · intro hne
          by_contra hqm
          have hnm : p ∉ half := by
            rw [hhalf, hmem]
            omega
          rw [if_neg hnm] at hd
          exact hne (Nat.xor_eq_zero.mp hd)
        · intro hqm
          have hm : p ∈ half := by
            rw [hhalf]
            exact hmem.mpr ⟨h2, by omega⟩
          rw [if_pos hm] at hd
          intro heq
          rw [heq, Nat.xor_self] at hd
          exact hdiff (Nat.xor_eq_zero.mp hd.symm)
      have hstep : Nat.clog 2 (right - left) = Nat.clog 2 ((right - left + 1) / 2) + 1 := by
        have h5 := Nat.clog_of_two_le one_lt_two (n := right - left) (by omega)
        have h6 : right - left + 2 - 1 = right - left + 1 := by omega
        rw [h6] at h5
        exact h5
      rw [bsLoop, dif_pos hlr]
      by_cases hbr : q < mid
      · rw [if_pos (hcond.mpr hbr)]
        show (bsLoop kA kB block left mid).1 = q
          ∧ (bsLoop kA kB block left mid).2 + 1 ≤ Nat.clog 2 (right - left)
          ∧ (∀ k, right - left = 2 ^ k → (bsLoop kA kB block left mid).2 + 1 = k)
        obtain ⟨ha, hb, hc⟩ := ih left mid (by omega) h2 hbr (by omega)
        refine ⟨ha, ?_, ?_⟩
        · have hmono := Nat.clog_mono_right 2
            (n := mid - left) (m := (right - left + 1) / 2) (by omega)
          omega
        · intro k hk
          have hk1 : 1 ≤ k := by
            rcases Nat.eq_zero_or_pos k with hk0 | hk0
            · subst hk0; simp at hk; omega
            · exact hk0
          have hpow : 2 ^ k = 2 * 2 ^ (k - 1) := by
            have h7 := pow_succ 2 (k - 1)
            have h8 : k - 1 + 1 = k := by omega
            rw [h8] at h7
            omega
          have hsz : mid - left = 2 ^ (k - 1) := by omega
          have := hc (k - 1) hsz
          omega
      · rw [if_neg (fun hcc => hbr (hcond.mp hcc))]
        show (bsLoop kA kB block mid right).1 = q
          ∧ (bsLoop kA kB block mid right).2 + 1 ≤ Nat.clog 2 (right - left)
          ∧ (∀ k, right - left = 2 ^ k → (bsLoop kA kB block mid right).2 + 1 = k)
        obtain ⟨ha, hb, hc⟩ := ih mid right (by omega) (by omega) h3 h4
        refine ⟨ha, ?_, ?_⟩
        · have h7 : right - mid = (right - left + 1) / 2 := by omega
          have h8 : Nat.clog 2 (right - mid) = Nat.clog 2 ((right - left + 1) / 2) := by
            rw [h7]
          omega
        · intro k hk
          have hk1 : 1 ≤ k := by
            rcases Nat.eq_zero_or_pos k with hk0 | hk0
            · subst hk0; simp at hk; omega
            · exact hk0
          have hpow : 2 ^ k = 2 * 2 ^ (k - 1) := by
            have h7 := pow_succ 2 (k - 1)
            have h8 : k - 1 + 1 = k := by omega
            rw [h8] at h7
            omega
          have hsz : right - mid = 2 ^ (k - 1) := by omega
          have := hc (k - 1) hsz
          omega
    · rw [bsLoop, dif_neg hlr]
      show left = q ∧ 0 ≤ Nat.clog 2 (right - left) ∧ (∀ k, right - left = 2 ^ k → 0 = k)
      refine ⟨by omega, Nat.zero_le _, ?_⟩
      intro k hk
      cases k with
      | zero => rfl
      | succ k =>
        have h7 : (2 : ℕ) ^ 1 ≤ 2 ^ (k + 1) :=
          Nat.pow_le_pow_right (by norm_num) (by omega)
        simp at h7
        omega

/-- Without any assumption on the keys, the binary-search loop's final
`left` stays inside the initial interval. -/
theorem bsLoop_bounds (kA kB block : List ℕ) :
    ∀ n left right, right - left ≤ n → left < right →
      left ≤ (bsLoop kA kB block left right).1
        ∧ (bsLoop kA kB block left right).1 < right := by
  intro n
  induction n with
  | zero => intro left right h1 h2; omega
  | succ n ih =>
    intro left right h1 h2
    by_cases hlr : 1 < right - left
    · have hmid1 : left < (left + right) / 2 := by omega
      have hmid2 : (left + right) / 2 < right := by omega
      rw [bsLoop, dif_pos hlr]
      by_cases hcond : compute_parity kA ((block.drop left).take ((left + right) / 2 - left))
          ≠ compute_parity kB ((block.drop left).take ((left + right) / 2 - left))
      · rw [if_pos hcond]
        show left ≤ (bsLoop kA kB block left ((left + right) / 2)).1
          ∧ (bsLoop kA kB block left ((left + right) / 2)).1 < right
        obtain ⟨ha, hb⟩ := ih left ((left + right) / 2) (by omega) hmid1
        exact ⟨ha, by omega⟩
      · rw [if_neg hcond]
        show left ≤ (bsLoop kA kB block ((left + right) / 2) right).1
          ∧ (bsLoop kA kB block ((left + right) / 2) right).1 < right
        obtain ⟨ha, hb⟩ := ih ((left + right) / 2) right (by omega) hmid2
        exact ⟨by omega, hb⟩
    · rw [bsLoop, dif_neg hlr]
      show left ≤ left ∧ left < right
      exact ⟨le_rfl, by omega⟩

/-! ## Claim C2 (amended) and C8: binary search behaviour -/

/-- C2 (amended): for equal-length bit keys differing in exactly one
position `p`, and any duplicate-free block containing `p`, one run of
`_binary_search` performs at most `ceil(log2 m)` parity comparisons
(exactly `ceil(log2 m)` when the block size `m` is a power of two), adds
exactly one leakage bit per comparison (the returned leakage counter is
the comparison count), flips `p` on the initiator's key only, and leaves
the two keys agreeing on the whole block. -/
theorem binarySearch_single_error (kA kB block : List ℕ) (p : ℕ)
    (hlen : kA.length = kB.length)
    (hbA : ∀ x ∈ kA, x ≤ 1) (hbB : ∀ x ∈ kB, x ≤ 1)
    (hp : p < kA.length)
    (hdiff : kA.getD p 0 ≠ kB.getD p 0)
    (hag : ∀ j, j ≠ p → kA.getD j 0 = kB.getD j 0)
    (hmem : p ∈ block) (hnd : block.Nodup) :
    (binarySearch kA kB block).responderKey = kB
    ∧ (binarySearch kA kB block).corrected = some p
    ∧ (binarySearch kA kB block).initiatorKey = flipBit kA p
    ∧ (binarySearch kA kB block).leakage ≤ Nat.clog 2 block.length
    ∧ (∀ k, block.length = 2 ^ k → (binarySearch kA kB block).leakage = k)
    ∧ (∀ j ∈ block, (binarySearch kA kB block).initiatorKey.getD j 0 = kB.getD j 0) := by
  obtain ⟨q, hq, hgi⟩ := List.mem_iff_getElem.mp hmem
  have hget : block.get ⟨q, hq⟩ = p := by simpa using hgi
  have hgAmem : kA.getD p 0 ≤ 1 := by
    have h9 : kA.getD p 0 = kA.get ⟨p, hp⟩ := by
      rw [List.getD_eq_getElem?_getD, List.getElem?_eq_getElem hp]
      rfl
    rw [h9]
    exact hbA _ (List.get_mem kA p hp)
  have hgBmem : kB.getD p 0 ≤ 1 := by
    have hpB : p < kB.length := hlen ▸ hp
    have h9 : kB.getD p 0 = kB.get ⟨p, hpB⟩ := by
      rw [List.getD_eq_getElem?_getD, List.getElem?_eq_getElem hpB]
      rfl
    rw [h9]
    exact hbB _ (List.get_mem kB p hpB)
  have hflip : ∀ j ∈ block, (flipBit kA p).getD j 0 = kB.getD j 0 := by
    intro j hj
    by_cases hjp : j = p
    · subst hjp
      rw [flipBit_getD_self kA j hp]
      exact bit_flip_eq _ _ hgAmem hgBmem hdiff
    · rw [flipBit_getD_ne kA p j hjp, hag j hjp]
  have h0 : block.length ≠ 0 := by
    intro h
    rw [List.length_eq_zero] at h
    subst h
    simp at hmem
  by_cases h1 : block.length = 1
  · have hq0 : q = 0 := by omega
    have hgd : block.getD 0 0 = p := by
      rw [List.getD_eq_getElem?_getD, List.getElem?_eq_getElem (by omega : 0 < block.length)]
      subst hq0
      simpa using hgi
    have hbs : binarySearch kA kB block = ⟨flipBit kA p, kB, 0, some p⟩ := by
      unfold binarySearch
      rw [if_neg h0, if_pos h1, hgd]
    rw [hbs]
    refine ⟨rfl, rfl, rfl, Nat.zero_le _, ?_, hflip⟩
    intro k hk
    rw [h1] at hk
    cases k with
    | zero => rfl
    | succ k =>
      have h7 : (2 : ℕ) ^ 1 ≤ 2 ^ (k + 1) := Nat.pow_le_pow_right (by norm_num) (by omega)
      simp at h7
      omega
  · obtain ⟨hL1, hL2, hL3⟩ := bsLoop_localizes kA kB block p q hnd hq hget hdiff hag
      block.length 0 block.length (by omega) (by omega) (by omega) le_rfl
    have herr : block.getD (bsLoop kA kB block 0 block.length).1 0 = p := by
      rw [hL1, List.getD_eq_getElem?_getD, List.getElem?_eq_getElem hq]
      simpa using hgi
    have hbs : binarySearch kA kB block
        = ⟨flipBit kA p, kB, (bsLoop kA kB block 0 block.length).2, some p⟩ := by
      unfold binarySearch
      rw [if_neg h0, if_neg h1]
      show (⟨flipBit kA (block.getD (bsLoop kA kB block 0 block.length).1 0), kB,
        (bsLoop kA kB block 0 block.length).2,
        some (block.getD (bsLoop kA kB block 0 block.length).1 0)⟩ : BinarySearchOutcome) = _
      rw [herr]
    rw [hbs]
    refine ⟨rfl, rfl, rfl, ?_, ?_, hflip⟩
    · have h7 : block.length - 0 = block.length := by omega
      rw [h7] at hL2
      exact hL2
    · intro k hk
      exact hL3 k (by omega)

/-- Witness for `binarySearch_single_error`: keys `[1,0,0,0]` and
`[0,0,0,0]` differ exactly at index 0; on the power-of-two block
`[0,1,2,3]` the search reports the corrected index 0 with exactly
`log2 4 = 2` leaked comparison bits. -/
theorem binarySearch_single_error_witness :
    (([1, 0, 0, 0] : List ℕ).getD 0 0 ≠ ([0, 0, 0, 0] : List ℕ).getD 0 0)
    ∧ (0 ∈ ([0, 1, 2, 3] : List ℕ)) ∧ ([0, 1, 2, 3] : List ℕ).Nodup
    ∧ (binarySearch [1, 0, 0, 0] [0, 0, 0, 0] [0, 1, 2, 3]).corrected = some 0
    ∧ (binarySearch [1, 0, 0, 0] [0, 0, 0, 0] [0, 1, 2, 3]).responderKey = [0, 0, 0, 0]
    ∧ (∀ k, ([0, 1, 2, 3] : List ℕ).length = 2 ^ k →
        (binarySearch [1, 0, 0, 0] [0, 0, 0, 0] [0, 1, 2, 3]).leakage = k) := by
  have hag : ∀ j, j ≠ 0 → ([1, 0, 0, 0] : List ℕ).getD j 0 = ([0, 0, 0, 0] : List ℕ).getD j 0 := by
    intro j hj
    match j with
    | 0 => exact absurd rfl hj
    | 1 => rfl
    | 2 => rfl
    | 3 => rfl
    | n + 4 => rfl
  have hthm := binarySearch_single_error [1, 0, 0, 0] [0, 0, 0, 0] [0, 1, 2, 3] 0 rfl
    (by decide) (by decide) (by decide) (by decide) hag (by decide) (by decide)
  exact ⟨by decide, by decide, by decide, hthm.2.1, hthm.1, hthm.2.2.2.2.1⟩

/-- C8: on any nonempty block of valid indices, one binary search leaves
the responder's key buffer untouched and modifies the initiator's key at
exactly one index, the localized (returned) error index. -/
theorem binarySearch_frame_effect (kA kB block : List ℕ)
    (hne : block ≠ []) (hvalid : ∀ i ∈ block, i < kA.length) :
    ∃ e, e ∈ block
      ∧ (binarySearch kA kB block).responderKey = kB
      ∧ (binarySearch kA kB block).corrected = some e
      ∧ (binarySearch kA kB block).initiatorKey = flipBit kA e
      ∧ (∀ j, j ≠ e → (binarySearch kA kB block).initiatorKey.getD j 0 = kA.getD j 0)
      ∧ (binarySearch kA kB block).initiatorKey.getD e 0 ≠ kA.getD e 0 := by
  have h0 : block.length ≠ 0 := fun h => hne (List.length_eq_zero.mp h)
  by_cases h1 : block.length = 1
  · have hmem : block.getD 0 0 ∈ block := by
      rw [List.getD_eq_getElem?_getD, List.getElem?_eq_getElem (by omega : 0 < block.length)]
      exact List.getElem_mem _
    have hbs : binarySearch kA kB block
        = ⟨flipBit kA (block.getD 0 0), kB, 0, some (block.getD 0 0)⟩ := by
      unfold binarySearch
      rw [if_neg h0, if_pos h1]
    refine ⟨block.getD 0 0, hmem, ?_⟩
    rw [hbs]
    refine ⟨rfl, rfl, rfl, ?_, ?_⟩
    · intro j hj
      exact flipBit_getD_ne kA _ j hj
    · rw [flipBit_getD_self kA _ (hvalid _ hmem)]
      exact xor_one_ne _
  · obtain ⟨hB1, hB2⟩ := bsLoop_bounds kA kB block block.length 0 block.length
      (by omega) (by omega)
    have hridx : (bsLoop kA kB block 0 block.length).1 < block.length := hB2
    have hmem : block.getD (bsLoop kA kB block 0 block.length).1 0 ∈ block := by
      rw [List.getD_eq_getElem?_getD, List.getElem?_eq_getElem hridx]
      exact List.getElem_mem _
    have hbs : binarySearch kA kB block
        = ⟨flipBit kA (block.getD (bsLoop kA kB block 0 block.length).1 0), kB,
            (bsLoop kA kB block 0 block.length).2,
            some (block.getD (bsLoop kA kB block 0 block.length).1 0)⟩ := by
      unfold binarySearch
      rw [if_neg h0, if_neg h1]
    refine ⟨block.getD (bsLoop kA kB block 0 block.length).1 0, hmem, ?_⟩
    rw [hbs]
    refine ⟨rfl, rfl, rfl, ?_, ?_⟩
    · intro j hj
      exact flipBit_getD_ne kA _ j hj
    · rw [flipBit_getD_self kA _ (hvalid _ hmem)]
      exact xor_one_ne _

/-- Witness for `binarySearch_frame_effect` at a concrete input. -/
theorem binarySearch_frame_effect_witness :
    (([0, 1] : List ℕ) ≠ [])
    ∧ (∀ i ∈ ([0, 1] : List ℕ), i < ([1, 0] : List ℕ).length)
    ∧ ∃ e, e ∈ ([0, 1] : List ℕ)
      ∧ (binarySearch [1, 0] [0, 0] [0, 1]).responderKey = [0, 0]
      ∧ (binarySearch [1, 0] [0, 0] [0, 1]).corrected = some e
      ∧ (binarySearch [1, 0] [0, 0] [0, 1]).initiatorKey = flipBit [1, 0] e
      ∧ (∀ j, j ≠ e → (binarySearch [1, 0] [0, 0] [0, 1]).initiatorKey.getD j 0
          = ([1, 0] : List ℕ).getD j 0)
      ∧ (binarySearch [1, 0] [0, 0] [0, 1]).initiatorKey.getD e 0
          ≠ ([1, 0] : List ℕ).getD e 0 := by
  refine ⟨by decide, by decide, ?_⟩
  exact binarySearch_frame_effect [1, 0] [0, 0] [0, 1] (by decide) (by decide)

/-- Counterexample to C2 as stated: with keys differing exactly at index 0
and the size-5 block `[0,1,2,3,4]`, the binary search performs only 2
parity rounds, not `ceil(log2 5) = 3`. -/
theorem binarySearch_exact_rounds_counterexample :
    (([1, 0, 0, 0, 0] : List ℕ).getD 0 0 ≠ ([0, 0, 0, 0, 0] : List ℕ).getD 0 0)
    ∧ (0 ∈ ([0, 1, 2, 3, 4] : List ℕ)) ∧ ([0, 1, 2, 3, 4] : List ℕ).Nodup
    ∧ (binarySearch [1, 0, 0, 0, 0] [0, 0, 0, 0, 0] [0, 1, 2, 3, 4]).leakage = 2
    ∧ Nat.clog 2 ([0, 1, 2, 3, 4] : List ℕ).length = 3 := by
  have e1 : bsLoop [1, 0, 0, 0, 0] [0, 0, 0, 0, 0] [0, 1, 2, 3, 4] 0 1 = (0, 0) := by
    rw [bsLoop, dif_neg (by decide)]
  have e2 : bsLoop [1, 0, 0, 0, 0] [0, 0, 0, 0, 0] [0, 1, 2, 3, 4] 0 2 = (0, 1) := by
    rw [bsLoop, dif_pos (by decide)]
    show (if (1 : ℕ) ≠ 0 then
        ((bsLoop [1, 0, 0, 0, 0] [0, 0, 0, 0, 0] [0, 1, 2, 3, 4] 0 1).1,
          (bsLoop [1, 0, 0, 0, 0] [0, 0, 0, 0, 0] [0, 1, 2, 3, 4] 0 1).2 + 1)
      else
        ((bsLoop [1, 0, 0, 0, 0] [0, 0, 0, 0, 0] [0, 1, 2, 3, 4] 1 2).1,
          (bsLoop [1, 0, 0, 0, 0] [0, 0, 0, 0, 0] [0, 1, 2, 3, 4] 1 2).2 + 1)) = (0, 1)
    rw [if_pos (by decide), e1]
  have e3 : bsLoop [1, 0, 0, 0, 0] [0, 0, 0, 0, 0] [0, 1, 2, 3, 4] 0 5 = (0, 2) := by
    rw [bsLoop, dif_pos (by decide)]
    show (if (1 : ℕ) ≠ 0 then
        ((bsLoop [1, 0, 0, 0, 0] [0, 0, 0, 0, 0] [0, 1, 2, 3, 4] 0 2).1,
          (bsLoop [1, 0, 0, 0, 0] [0, 0, 0, 0, 0] [0, 1, 2, 3, 4] 0 2).2 + 1)
      else
        ((bsLoop [1, 0, 0, 0, 0] [0, 0, 0, 0, 0] [0, 1, 2, 3, 4] 2 5).1,
          (bsLoop [1, 0, 0, 0, 0] [0, 0, 0, 0, 0] [0, 1, 2, 3, 4] 2 5).2 + 1)) = (0, 2)
    rw [if_pos (by decide), e2]
  have hleak : (binarySearch [1, 0, 0, 0, 0] [0, 0, 0, 0, 0] [0, 1, 2, 3, 4]).leakage = 2 := by
    unfold binarySearch
    rw [if_neg (by decide), if_neg (by decide)]
    show (bsLoop [1, 0, 0, 0, 0] [0, 0, 0, 0, 0] [0, 1, 2, 3, 4] 0 5).2 = 2
    rw [e3]
  have c2 : Nat.clog 2 2 = 1 := by
    rw [Nat.clog_of_two_le one_lt_two le_rfl]
    norm_num [Nat.clog_one_right]
  have c3 : Nat.clog 2 3 = 2 := by
    rw [Nat.clog_of_two_le one_lt_two (by norm_num)]
    norm_num [c2]
  have c5 : Nat.clog 2 5 = 3 := by
    rw [Nat.clog_of_two_le one_lt_two (by norm_num)]
    norm_num [c3]
  exact ⟨by decide, by decide, by decide, hleak, c5⟩

/-! ## Claim C9: padding insensitivity of the polynomial hash -/

/-- Appending trailing zeros that stay within the final (zero-padded) chunk
does not change the chunk decomposition. -/
theorem chunksGo_pad (cs : ℕ) (hcs : cs ≠ 0) :
    ∀ n (l : List ℕ) (z : ℕ), l.length ≤ n → l ≠ [] → l.length % cs ≠ 0 →
      l.length + z ≤ ((l.length + cs - 1) / cs) * cs →
      chunksGo cs (l ++ List.replicate z 0) = chunksGo cs l := by
  intro n
  induction n with
  | zero =>
    intro l z h1 h2 _ _
    cases l with
    | nil => exact absurd rfl h2
    | cons a l => simp at h1
  | succ n ih =>
    intro l z h1 h2 h3 h4
    have hl0 : 0 < l.length := List.length_pos.mpr h2
    have happend : l ++ List.replicate z 0 ≠ [] :=
      fun h => h2 (List.append_eq_nil.mp h).1
    have hcond1 : ¬ (l ++ List.replicate z 0 = [] ∨ cs = 0) := by
      rintro (hh | hh)
      · exact happend hh
      · exact hcs hh
    have hcond2 : ¬ (l = [] ∨ cs = 0) := by
      rintro (hh | hh)
      · exact h2 hh
      · exact hcs hh
    by_cases hsmall : l.length < cs
    · have hceil : (l.length + cs - 1) / cs = 1 := by
        apply Nat.div_eq_of_lt_le
        · omega
        · omega
      rw [hceil, one_mul] at h4
      rw [chunksGo_eq, if_neg hcond1]
      conv_rhs => rw [chunksGo_eq, if_neg hcond2]
      have hlen2 : (l ++ List.replicate z 0).length ≤ cs := by
        simp only [List.length_append, List.length_replicate]
        omega
      congr 1
      · unfold padChunk
        rw [List.take_of_length_le hlen2, List.take_of_length_le (le_of_lt hsmall)]
        simp only [List.length_append, List.length_replicate, List.append_assoc,
          ← List.replicate_add]
        congr 2
        omega
      · rw [List.drop_eq_nil_of_le hlen2, List.drop_eq_nil_of_le (le_of_lt hsmall)]
    · have hcs_le : cs ≤ l.length := le_of_not_lt hsmall
      rw [chunksGo_eq, if_neg hcond1]
      conv_rhs => rw [chunksGo_eq, if_neg hcond2]
      have htake : (l ++ List.replicate z 0).take cs = l.take cs :=
        List.take_append_of_le_length hcs_le
      have hdrop : (l ++ List.replicate z 0).drop cs = l.drop cs ++ List.replicate z 0 :=
        List.drop_append_of_le_length hcs_le
      rw [htake, hdrop]
      congr 1
      apply ih (l.drop cs) z
      · simp only [List.length_drop]
        omega
      · intro hnil
        have hlen0 := congrArg List.length hnil
        simp only [List.length_drop, List.length_nil] at hlen0
        have hle : l.length = cs := by omega
        rw [hle, Nat.mod_self] at h3
        exact h3 rfl
      · simp only [List.length_drop]
        rw [← Nat.mod_eq_sub_mod hcs_le]
        exact h3
      · simp only [List.length_drop]
        have hq : (l.length - cs + cs - 1) / cs + 1 = (l.length + cs - 1) / cs := by
          have h5 : l.length + cs - 1 = (l.length - cs + cs - 1) + cs := by omega
          rw [h5, Nat.add_div_right _ (Nat.pos_of_ne_zero hcs)]
        have h6 : ((l.length - cs + cs - 1) / cs + 1) * cs
            = ((l.length - cs + cs - 1) / cs) * cs + cs := by ring
        rw [← hq, h6] at h4
        omega

/-- C9: the polynomial hash cannot distinguish a key from its extension by
trailing zero bits up to the next multiple of `element_bits`: the final
chunk is zero-padded either way, so both keys hash to the same tag for
every salt. -/
theorem compute_polynomial_hash_pad (key : List ℕ) (salt fieldBits : ℕ)
    (elementBits : Option ℕ) (z : ℕ)
    (hk : key ≠ []) (hsalt : salt ≠ 0)
    (heb : elementBits.getD fieldBits ≠ 0)
    (hmod : key.length % elementBits.getD fieldBits ≠ 0)
    (hz : key.length + z ≤ ((key.length + elementBits.getD fieldBits - 1)
        / elementBits.getD fieldBits) * elementBits.getD fieldBits) :
    compute_polynomial_hash (key ++ List.replicate z 0) salt fieldBits elementBits
      = compute_polynomial_hash key salt fieldBits elementBits := by
  have happend : key ++ List.replicate z 0 ≠ [] :=
    fun h => hk (List.append_eq_nil.mp h).1
  have hchunks : bits_to_field_elements (key ++ List.replicate z 0)
      (elementBits.getD fieldBits) = bits_to_field_elements key (elementBits.getD fieldBits) := by
    unfold bits_to_field_elements chunk_bits
    rw [if_neg happend, if_neg hk,
      chunksGo_pad (elementBits.getD fieldBits) heb key.length key z le_rfl hk hmod hz]
  simp only [compute_polynomial_hash]
  rw [if_neg happend, if_neg hk, hchunks]

/-- Witness for `compute_polynomial_hash_pad`: a 3-bit key extended by one
zero bit inside its (64-bit) padded chunk hashes identically. -/
theorem compute_polynomial_hash_pad_witness :
    (([1, 0, 1] : List ℕ) ≠ []) ∧ (3 : ℕ) % 64 ≠ 0 ∧ (3 : ℕ) + 1 ≤ ((3 + 64 - 1) / 64) * 64
    ∧ compute_polynomial_hash ([1, 0, 1] ++ List.replicate 1 0) 5 64 none
      = compute_polynomial_hash [1, 0, 1] 5 64 none := by
  refine ⟨by decide, by decide, by decide, ?_⟩
  exact compute_polynomial_hash_pad [1, 0, 1] 5 64 none 1 (by decide) (by decide)
    (by decide) (by decide) (by decide)

/-! ## Properties of `encode` -/

theorem encode_zero : encode 0 = 0 := by
  rw [encode]
  simp

theorem encode_unfold (a : ℕ) :
    encode a = Polynomial.C ((a % 2 : ℕ) : ZMod 2) + Polynomial.X * encode (a / 2) := by
  by_cases h : a = 0
  · subst h
    rw [encode]
    simp [encode_zero]
  · rw [encode, dif_neg h]

theorem encode_one : encode 1 = 1 := by
  rw [encode_unfold 1]
  norm_num [encode_zero]

theorem encode_two_mul (a : ℕ) : encode (2 * a) = Polynomial.X * encode a := by
  rw [encode_unfold (2 * a)]
  have h1 : 2 * a % 2 = 0 := by omega
  have h2 : 2 * a / 2 = a := by omega
  rw [h1, h2]
  simp

theorem encode_coeff (a i : ℕ) : (encode a).coeff i = ((a / 2 ^ i % 2 : ℕ) : ZMod 2) := by
  induction i generalizing a with
  | zero =>
    rw [encode_unfold a]
    simp [Polynomial.coeff_add, Polynomial.mul_coeff_zero]
  | succ i ih =>
    rw [encode_unfold a]
    rw [Polynomial.coeff_add, Polynomial.coeff_C, Polynomial.coeff_X_mul, ih]
    have h2 : a / 2 / 2 ^ i = a / 2 ^ (i + 1) := by
      rw [Nat.div_div_eq_div_mul, ← pow_succ']
    simp [h2]

theorem zmod2_cast_inj (x y : ℕ) (hx : x < 2) (hy : y < 2)
    (h : ((x : ℕ) : ZMod 2) = ((y : ℕ) : ZMod 2)) : x = y := by
  interval_cases x <;> interval_cases y <;> first | rfl | (exfalso; exact absurd h (by decide))

theorem encode_inj {a b : ℕ} (h : encode a = encode b) : a = b := by
  apply Nat.eq_of_testBit_eq
  intro i
  have hc : (encode a).coeff i = (encode b).coeff i := by rw [h]
  rw [encode_coeff, encode_coeff] at hc
  have := zmod2_cast_inj _ _ (Nat.mod_lt _ (by norm_num)) (Nat.mod_lt _ (by norm_num)) hc
  rw [Nat.testBit_to_div_mod, Nat.testBit_to_div_mod, this]

theorem xor_mod_two (a b : ℕ) : (a ^^^ b) % 2 = a % 2 ^^^ b % 2 := by
  rw [← Nat.and_one_is_mod (a ^^^ b), Nat.and_xor_distrib_right,
    Nat.and_one_is_mod, Nat.and_one_is_mod]

theorem zmod2_cast_xor (x y : ℕ) (hx : x < 2) (hy : y < 2) :
    ((x ^^^ y : ℕ) : ZMod 2) = ((x : ℕ) : ZMod 2) + ((y : ℕ) : ZMod 2) := by
  interval_cases x <;> interval_cases y <;> decide

theorem encode_xor (a b : ℕ) : encode (a ^^^ b) = encode a + encode b := by
  induction a using Nat.strong_induction_on generalizing b with
  | _ a ih =>
    by_cases ha : a = 0
    · subst ha
      rw [Nat.zero_xor, encode_zero, zero_add]
    · rw [encode_unfold (a ^^^ b), encode_unfold a, encode_unfold b]
      rw [Nat.xor_div_two, ih (a / 2) (Nat.div_lt_self (Nat.pos_of_ne_zero ha) one_lt_two)]
      rw [xor_mod_two, zmod2_cast_xor _ _ (Nat.mod_lt _ (by norm_num)) (Nat.mod_lt _ (by norm_num))]
      rw [map_add]
      ring

theorem encode_split (n : ℕ) : ∀ x : ℕ,
    encode x = encode (x % 2 ^ n) + Polynomial.X ^ n * encode (x / 2 ^ n) := by
  induction n with
  | zero => intro x; simp [Nat.mod_one, encode_zero]
  | succ n ih =>
    intro x
    rw [encode_unfold x, ih (x / 2), encode_unfold (x % 2 ^ (n + 1))]
    have h1 : x % 2 ^ (n + 1) % 2 = x % 2 :=
      Nat.mod_mod_of_dvd x (dvd_pow_self 2 (Nat.succ_ne_zero n))
    have h2 : x % 2 ^ (n + 1) / 2 = x / 2 % 2 ^ n := by
      have h4 : (2 : ℕ) ^ (n + 1) = 2 * 2 ^ n := by rw [pow_succ']
      rw [h4, Nat.mod_mul_right_div_self]
    have h3 : x / 2 / 2 ^ n = x / 2 ^ (n + 1) := by
      rw [Nat.div_div_eq_div_mul, ← pow_succ']
    rw [h1, h2, h3]
    ring

theorem encode_coeff_of_le (a n : ℕ) (h : a < 2 ^ n) :
    ∀ i, n ≤ i → (encode a).coeff i = 0 := by
  intro i hi
  rw [encode_coeff]
  have h2 : a / 2 ^ i = 0 :=
    Nat.div_eq_of_lt (lt_of_lt_of_le h (Nat.pow_le_pow_right (by norm_num) hi))
  rw [h2]
  simp

theorem encode_degree_lt (a n : ℕ) (h : a < 2 ^ n) : (encode a).degree < (n : ℕ) :=
  (Polynomial.degree_lt_iff_coeff_zero _ _).mpr fun m hm => encode_coeff_of_le a n h m hm

theorem poly_add_self (p : Polynomial (ZMod 2)) : p + p = 0 := by
  ext n
  simp [CharTwo.add_self_eq_zero]

theorem redPoly_degree (n m : ℕ) (hm : m < 2 ^ n) :
    (redPoly n m).degree = (n : ℕ) := by
  unfold redPoly
  rw [Polynomial.degree_add_eq_left_of_degree_lt, Polynomial.degree_X_pow]
  rw [Polynomial.degree_X_pow]
  exact encode_degree_lt m n hm

/-- Injectivity of `gfProj` on field elements: two naturals below `2^n`
with the same residue modulo the reduction polynomial are equal. -/
theorem gfProj_inj (n m a b : ℕ) (hm : m < 2 ^ n) (ha : a < 2 ^ n) (hb : b < 2 ^ n)
    (h : gfProj n m a = gfProj n m b) : a = b := by
  have hmem := Ideal.Quotient.eq.mp h
  rw [gfIdeal, Ideal.mem_span_singleton] at hmem
  by_cases hu : encode a - encode b = 0
  · exact encode_inj (sub_eq_zero.mp hu)
  · exfalso
    have hdeg1 := Polynomial.degree_le_of_dvd hmem hu
    have hdeg2 : (encode a - encode b).degree < (n : ℕ) := by
      refine (Polynomial.degree_lt_iff_coeff_zero _ _).mpr fun i hi => ?_
      rw [Polynomial.coeff_sub, encode_coeff_of_le a n ha i hi,
        encode_coeff_of_le b n hb i hi, sub_zero]
    rw [redPoly_degree n m hm] at hdeg1
    exact absurd (lt_of_le_of_lt hdeg1 hdeg2) (lt_irrefl _)

theorem gfProj_xor (n m a b : ℕ) : gfProj n m (a ^^^ b) = gfProj n m a + gfProj n m b := by
  unfold gfProj
  rw [encode_xor, map_add]

theorem gfProj_zero (n m : ℕ) : gfProj n m 0 = 0 := by
  unfold gfProj
  rw [encode_zero, map_zero]

theorem gfProj_one (n m : ℕ) : gfProj n m 1 = 1 := by
  unfold gfProj
  rw [encode_one, map_one]

/-- In the quotient, `X^n` and the encoded modulus agree (characteristic 2
turns `-m` into `m`). -/
theorem gfProj_X_pow (n m : ℕ) :
    Ideal.Quotient.mk (gfIdeal n m) (Polynomial.X ^ n)
      = Ideal.Quotient.mk (gfIdeal n m) (encode m) := by
  have hP : Ideal.Quotient.mk (gfIdeal n m) (redPoly n m) = 0 :=
    Ideal.Quotient.eq_zero_iff_mem.mpr (Ideal.subset_span rfl)
  unfold redPoly at hP
  rw [map_add] at hP
  have h2 : Ideal.Quotient.mk (gfIdeal n m) (encode m)
      + Ideal.Quotient.mk (gfIdeal n m) (encode m) = 0 := by
    rw [← map_add, poly_add_self, map_zero]
  -- from X^n + m = 0 and m + m = 0 conclude X^n = m
  have := congrArg (fun v => v + Ideal.Quotient.mk (gfIdeal n m) (encode m)) hP
  simp only [add_assoc, h2, add_zero, zero_add] at this
  exact this

theorem gfDouble_lt (n m a : ℕ) (hm : m < 2 ^ n) : gfDouble n m a < 2 ^ n := by
  have hmask : (a <<< 1) &&& ((1 <<< n) - 1) < 2 ^ n := by
    rw [Nat.one_shiftLeft, Nat.and_pow_two_sub_one_eq_mod]
    exact Nat.mod_lt _ (Nat.two_pow_pos n)
  simp only [gfDouble]
  split
  · exact Nat.xor_lt_two_pow hmask hm
  · exact hmask

theorem gfDouble_proj (n m a : ℕ) (hn : 0 < n) (ha : a < 2 ^ n) :
    gfProj n m (gfDouble n m a)
      = Ideal.Quotient.mk (gfIdeal n m) Polynomial.X * gfProj n m a := by
  have hshift : a <<< 1 = 2 * a := by
    rw [Nat.shiftLeft_eq]
    omega
  have hmask : (a <<< 1) &&& ((1 <<< n) - 1) = 2 * a % 2 ^ n := by
    rw [hshift, Nat.one_shiftLeft, Nat.and_pow_two_sub_one_eq_mod]
  have hcarry : a >>> (n - 1) = a / 2 ^ (n - 1) := Nat.shiftRight_eq_div_pow a (n - 1)
  have hpow : 2 ^ n = 2 * 2 ^ (n - 1) := by
    have h7 := pow_succ' 2 (n - 1)
    have h8 : n - 1 + 1 = n := by omega
    rw [h8] at h7
    exact h7
  simp only [gfDouble]
  by_cases hc : a >>> (n - 1) ≠ 0
  · rw [if_pos hc]
    have hca : 2 ^ (n - 1) ≤ a := by
      rw [hcarry] at hc
      by_contra hlt
      exact hc (Nat.div_eq_of_lt (by omega))
    have hdiv : 2 * a / 2 ^ n = 1 := by
      apply Nat.div_eq_of_lt_le
      · omega
      · omega
    have hsplit := encode_split n (2 * a)
    rw [hdiv, encode_one, mul_one] at hsplit
    have h9 : encode (2 * a % 2 ^ n) = encode (2 * a) - Polynomial.X ^ n := by
      rw [hsplit]
      ring
    rw [hmask]
    unfold gfProj
    calc Ideal.Quotient.mk (gfIdeal n m) (encode (2 * a % 2 ^ n ^^^ m))
        = Ideal.Quotient.mk (gfIdeal n m) (encode (2 * a % 2 ^ n))
          + Ideal.Quotient.mk (gfIdeal n m) (encode m) := by rw [encode_xor, map_add]
      _ = (Ideal.Quotient.mk (gfIdeal n m) (encode (2 * a))
          - Ideal.Quotient.mk (gfIdeal n m) (Polynomial.X ^ n))
          + Ideal.Quotient.mk (gfIdeal n m) (encode m) := by rw [h9, map_sub]
      _ = (Ideal.Quotient.mk (gfIdeal n m) (encode (2 * a))
          - Ideal.Quotient.mk (gfIdeal n m) (encode m))
          + Ideal.Quotient.mk (gfIdeal n m) (encode m) := by rw [gfProj_X_pow]
      _ = Ideal.Quotient.mk (gfIdeal n m) (encode (2 * a)) := by ring
      _ = Ideal.Quotient.mk (gfIdeal n m) Polynomial.X
          * Ideal.Quotient.mk (gfIdeal n m) (encode a) := by rw [encode_two_mul, map_mul]
  · rw [if_neg hc]
    push_neg at hc
    have hca : a < 2 ^ (n - 1) := by
      rw [hcarry] at hc
      exact (Nat.div_eq_zero_iff (Nat.two_pow_pos _)).mp hc
    have h2a : 2 * a < 2 ^ n := by omega
    rw [hmask, Nat.mod_eq_of_lt h2a]
    unfold gfProj
    rw [encode_two_mul, map_mul]

theorem gfMulLoop_lt (n m : ℕ) (hm : m < 2 ^ n) :
    ∀ b result a, result < 2 ^ n → a < 2 ^ n → gfMulLoop n m result a b < 2 ^ n := by
  intro b
  induction b using Nat.strong_induction_on with
  | _ b ih =>
    intro result a hr ha
    rw [gfMulLoop_eq]
    by_cases hb : b = 0
    · rw [if_pos hb]
      exact hr
    · rw [if_neg hb]
      apply ih (b / 2) (Nat.div_lt_self (Nat.pos_of_ne_zero hb) one_lt_two)
      · split
        · exact Nat.xor_lt_two_pow hr ha
        · exact hr
      · exact gfDouble_lt n m a hm

/-- The shift-and-XOR loop computes `result + a·b` in the quotient ring. -/
theorem gfMulLoop_proj (n m : ℕ) (hn : 0 < n) (hm : m < 2 ^ n) :
    ∀ b result a, a < 2 ^ n →
      gfProj n m (gfMulLoop n m result a b)
        = gfProj n m result + gfProj n m a * gfProj n m b := by
  intro b
  induction b using Nat.strong_induction_on with
  | _ b ih =>
    intro result a ha
    by_cases hb : b = 0
    · subst hb
      rw [gfMulLoop_eq, if_pos rfl, gfProj_zero, mul_zero, add_zero]
    · rw [gfMulLoop_eq, if_neg hb]
      rw [ih (b / 2) (Nat.div_lt_self (Nat.pos_of_ne_zero hb) one_lt_two)
        (if b &&& 1 = 1 then result ^^^ a else result) (gfDouble n m a)
        (gfDouble_lt n m a hm)]
      have hbsplit : gfProj n m b
          = Ideal.Quotient.mk (gfIdeal n m) (Polynomial.C ((b % 2 : ℕ) : ZMod 2))
            + Ideal.Quotient.mk (gfIdeal n m) Polynomial.X * gfProj n m (b / 2) := by
        unfold gfProj
        conv_lhs => rw [encode_unfold b]
        rw [map_add, map_mul]
      have hdp := gfDouble_proj n m a hn ha
      by_cases hodd : b &&& 1 = 1
      · rw [if_pos hodd, gfProj_xor, hdp, hbsplit]
        have hone : ((b % 2 : ℕ) : ZMod 2) = 1 := by
          rw [Nat.and_one_is_mod] at hodd
          rw [hodd]
          norm_num
        rw [hone, Polynomial.C_1, map_one]
        ring
      · rw [if_neg hodd, hdp, hbsplit]
        have hzero : ((b % 2 : ℕ) : ZMod 2) = 0 := by
          rw [Nat.and_one_is_mod] at hodd
          have h5 : b % 2 = 0 := by omega
          rw [h5]
          norm_num
        rw [hzero, Polynomial.C_0, map_zero]
        ring

theorem gfMulLoop_comm (n m : ℕ) (hn : 0 < n) (hm : m < 2 ^ n) (a b : ℕ)
    (ha : a < 2 ^ n) (hb : b < 2 ^ n) :
    gfMulLoop n m 0 a b = gfMulLoop n m 0 b a := by
  apply gfProj_inj n m _ _ hm
    (gfMulLoop_lt n m hm b 0 a (Nat.two_pow_pos n) ha)
    (gfMulLoop_lt n m hm a 0 b (Nat.two_pow_pos n) hb)
  rw [gfMulLoop_proj n m hn hm b 0 a ha, gfMulLoop_proj n m hn hm a 0 b hb, gfProj_zero]
  ring

theorem gfPowLoop_lt (n m : ℕ) (hm : m < 2 ^ n) :
    ∀ exponent result base, result < 2 ^ n → base < 2 ^ n →
      gfPowLoop n m result base exponent < 2 ^ n := by
  intro e
  induction e using Nat.strong_induction_on with
  | _ e ih =>
    intro result base hr hb
    rw [gfPowLoop_eq]
    by_cases he : e = 0
    · rw [if_pos he]
      exact hr
    · rw [if_neg he]
      apply ih (e / 2) (Nat.div_lt_self (Nat.pos_of_ne_zero he) one_lt_two)
      · split
        · exact gfMulLoop_lt n m hm base 0 result (Nat.two_pow_pos n) hr
        · exact hr
      · exact gfMulLoop_lt n m hm base 0 base (Nat.two_pow_pos n) hb

/-- The square-and-multiply loop computes `result·base^exponent` in the
quotient ring. -/
theorem gfPowLoop_proj (n m : ℕ) (hn : 0 < n) (hm : m < 2 ^ n) :
    ∀ exponent result base, result < 2 ^ n → base < 2 ^ n →
      gfProj n m (gfPowLoop n m result base exponent)
        = gfProj n m result * gfProj n m base ^ exponent := by
  intro e
  induction e using Nat.strong_induction_on with
  | _ e ih =>
    intro result base hr hb
    by_cases he : e = 0
    · subst he
      rw [gfPowLoop_eq, if_pos rfl, pow_zero, mul_one]
    · rw [gfPowLoop_eq, if_neg he]
      rw [ih (e / 2) (Nat.div_lt_self (Nat.pos_of_ne_zero he) one_lt_two)
        (if e &&& 1 = 1 then gfMulLoop n m 0 result base else result)
        (gfMulLoop n m 0 base base)
        (by
          split
          · exact gfMulLoop_lt n m hm base 0 result (Nat.two_pow_pos n) hr
          · exact hr)
        (gfMulLoop_lt n m hm base 0 base (Nat.two_pow_pos n) hb)]
      have hsq : gfProj n m (gfMulLoop n m 0 base base)
          = gfProj n m base * gfProj n m base := by
        rw [gfMulLoop_proj n m hn hm base 0 base hb, gfProj_zero, zero_add]
      by_cases hodd : e &&& 1 = 1
      · rw [if_pos hodd, gfMulLoop_proj n m hn hm base 0 result hr, hsq]
        have h5 : e = 2 * (e / 2) + 1 := by
          rw [Nat.and_one_is_mod] at hodd
          omega
        conv_rhs => rw [h5]
        rw [gfProj_zero, zero_add, pow_add, pow_mul, pow_one]
        ring
      · rw [if_neg hodd, hsq]
        have h5 : e = 2 * (e / 2) := by
          rw [Nat.and_one_is_mod] at hodd
          omega
        conv_rhs => rw [h5]
        rw [pow_mul]
        ring

/-! ## Claim C4: GF arithmetic laws -/

/-- C4: for n in {64, 128} and all field elements below `2^n`: `gf_add` is
commutative, associative and self-inverse; `gf_multiply` is commutative
and its result stays below `2^n`; and `gf_power a 0 = 1` for every `a`
including 0. -/
theorem gf_arithmetic_laws :
    (∀ a b : ℕ, gf_add a b = gf_add b a)
    ∧ (∀ a b c : ℕ, gf_add (gf_add a b) c = gf_add a (gf_add b c))
    ∧ (∀ a : ℕ, gf_add a a = 0)
    ∧ (∀ n a b : ℕ, (n = 64 ∨ n = 128) → a < 2 ^ n → b < 2 ^ n →
        gf_multiply a b n = gf_multiply b a n)
    ∧ (∀ n a b v : ℕ, (n = 64 ∨ n = 128) → a < 2 ^ n → b < 2 ^ n →
        gf_multiply a b n = some v → v < 2 ^ n)
    ∧ (∀ n a : ℕ, gf_power a 0 n = some 1) := by
  have h64 : ∀ x y : ℕ, gf_multiply x y 64 = some (gfMulLoop 64 GF64_MODULUS 0 x y) :=
    fun x y => rfl
  have h128 : ∀ x y : ℕ, gf_multiply x y 128 = some (gfMulLoop 128 GF128_MODULUS 0 x y) :=
    fun x y => rfl
  refine ⟨fun a b => Nat.xor_comm a b, fun a b c => Nat.xor_assoc a b c,
    fun a => Nat.xor_self a, ?_, ?_, fun n a => rfl⟩
  · intro n a b hn ha hb
    rcases hn with h | h
    · subst h
      rw [h64, h64]
      exact congrArg some (gfMulLoop_comm 64 GF64_MODULUS (by norm_num)
        (by norm_num [GF64_MODULUS]) a b ha hb)
    · subst h
      rw [h128, h128]
      exact congrArg some (gfMulLoop_comm 128 GF128_MODULUS (by norm_num)
        (by norm_num [GF128_MODULUS]) a b ha hb)
  · intro n a b v hn ha hb hv
    rcases hn with h | h
    · subst h
      rw [h64] at hv
      injection hv with hv
      rw [← hv]
      exact gfMulLoop_lt 64 GF64_MODULUS (by norm_num [GF64_MODULUS]) b 0 a
        (Nat.two_pow_pos 64) ha
    · subst h
      rw [h128] at hv
      injection hv with hv
      rw [← hv]
      exact gfMulLoop_lt 128 GF128_MODULUS (by norm_num [GF128_MODULUS]) b 0 a
        (Nat.two_pow_pos 128) ha

/-- Witness for `gf_arithmetic_laws` at concrete inputs in GF(2^64). -/
theorem gf_arithmetic_laws_witness :
    ((64 : ℕ) = 64 ∨ (64 : ℕ) = 128) ∧ (3 : ℕ) < 2 ^ 64 ∧ (5 : ℕ) < 2 ^ 64
    ∧ gf_multiply 3 5 64 = gf_multiply 5 3 64
    ∧ gf_add 3 3 = 0
    ∧ gf_power 0 0 64 = some 1 := by
  refine ⟨Or.inl rfl, by norm_num, by norm_num, ?_,
    gf_arithmetic_laws.2.2.1 3, gf_arithmetic_laws.2.2.2.2.2 64 0⟩
  exact gf_arithmetic_laws.2.2.2.1 64 3 5 (Or.inl rfl) (by norm_num) (by norm_num)

/-! ## Bounds on field elements produced by chunking -/

theorem or_bit_eq_add (r v : ℕ) (hv : v < 2) : 2 * r ||| v = 2 * r + v := by
  match v, hv with
  | 0, _ => simp
  | 1, _ =>
    apply Nat.eq_of_testBit_eq
    intro i
    cases i with
    | zero =>
      rw [Nat.testBit_or]
      simp only [Nat.testBit_zero]
      have h1 : (2 * r) % 2 = 0 := by omega
      have h2 : (2 * r + 1) % 2 = 1 := by omega
      simp [h1, h2]
    | succ i =>
      rw [Nat.testBit_or, Nat.testBit_succ, Nat.testBit_succ, Nat.testBit_succ]
      have h1 : 2 * r / 2 = r := by omega
      have h2 : (2 * r + 1) / 2 = r := by omega
      have h3 : (1 : ℕ) / 2 = 0 := by omega
      rw [h1, h2, h3, Nat.zero_testBit, Bool.or_false]

theorem bits_to_int_step (r bit : ℕ) : (r <<< 1) ||| (bit &&& 1) = 2 * r + bit % 2 := by
  have h1 : r <<< 1 = 2 * r := by
    rw [Nat.shiftLeft_eq]
    omega
  rw [h1, Nat.and_one_is_mod]
  exact or_bit_eq_add r (bit % 2) (Nat.mod_lt _ (by norm_num))

theorem bits_to_int_eq (l : List ℕ) :
    bits_to_int l = l.foldl (fun r bit => 2 * r + bit % 2) 0 := by
  unfold bits_to_int
  simp only [bits_to_int_step]

theorem bits_to_int_lt (l : List ℕ) : bits_to_int l < 2 ^ l.length := by
  rw [bits_to_int_eq]
  have main : ∀ (l : List ℕ) (r : ℕ),
      l.foldl (fun r bit => 2 * r + bit % 2) r < (r + 1) * 2 ^ l.length := by
    intro l
    induction l with
    | nil => intro r; simp
    | cons bit l ih =>
      intro r
      simp only [List.foldl_cons, List.length_cons]
      have h1 := ih (2 * r + bit % 2)
      have h2 : (2 * r + bit % 2 + 1) * 2 ^ l.length ≤ (r + 1) * 2 ^ (l.length + 1) := by
        have h3 : bit % 2 < 2 := Nat.mod_lt _ (by norm_num)
        have h4 : (2 : ℕ) ^ (l.length + 1) = 2 * 2 ^ l.length := by rw [pow_succ']
        rw [h4]
        nlinarith [Nat.two_pow_pos l.length]
      omega
  have := main l 0
  simpa using this

theorem chunksGo_length (cs : ℕ) (hcs : cs ≠ 0) :
    ∀ n (l : List ℕ), l.length ≤ n → ∀ c ∈ chunksGo cs l, c.length = cs := by
  intro n
  induction n with
  | zero =>
    intro l h1 c hc
    cases l with
    | nil =>
      rw [chunksGo_eq, if_pos (Or.inl rfl)] at hc
      exact absurd hc (List.not_mem_nil c)
    | cons a l => simp at h1
  | succ n ih =>
    intro l h1 c hc
    by_cases hl : l = []
    · subst hl
      rw [chunksGo_eq, if_pos (Or.inl rfl)] at hc
      exact absurd hc (List.not_mem_nil c)
    · rw [chunksGo_eq, if_neg (by
        rintro (hh | hh)
        · exact hl hh
        · exact hcs hh)] at hc
      rcases List.mem_cons.mp hc with hc | hc
      · subst hc
        unfold padChunk
        simp only [List.length_append, List.length_replicate, List.length_take]
        omega
      · apply ih (l.drop cs) ?_ c hc
        have : 0 < l.length := List.length_pos.mpr hl
        simp only [List.length_drop]
        omega

theorem bits_to_field_elements_lt (key : List ℕ) (cs : ℕ) (hcs : cs ≠ 0) :
    ∀ e ∈ bits_to_field_elements key cs, e < 2 ^ cs := by
  intro e he
  unfold bits_to_field_elements at he
  obtain ⟨c, hc, hce⟩ := List.mem_map.mp he
  have hclen : c.length = cs := by
    unfold chunk_bits at hc
    by_cases hk : key = []
    · rw [if_pos hk] at hc
      exact absurd hc (List.not_mem_nil c)
    · rw [if_neg hk] at hc
      exact chunksGo_length cs hcs key.length key le_rfl c hc
  rw [← hce, ← hclen]
  exact bits_to_int_lt c

/-! ## Horner evaluation versus the power-sum formula -/

theorem horner_lt (n m salt : ℕ) (hm : m < 2 ^ n) :
    ∀ (rest : List ℕ) (acc : ℕ), acc < 2 ^ n → (∀ x ∈ rest, x < 2 ^ n) →
      rest.foldl (fun result mi => gf_add (gfMulLoop n m 0 result salt) mi) acc < 2 ^ n := by
  intro rest
  induction rest with
  | nil => intro acc h _; exact h
  | cons mi rest ih =>
    intro acc hacc hall
    simp only [List.foldl_cons]
    apply ih
    · unfold gf_add
      exact Nat.xor_lt_two_pow
        (gfMulLoop_lt n m hm salt 0 acc (Nat.two_pow_pos n) hacc)
        (hall mi (List.mem_cons_self mi rest))
    · exact fun x hx => hall x (List.mem_cons_of_mem mi hx)

theorem horner_proj (n m salt : ℕ) (hn : 0 < n) (hm : m < 2 ^ n) :
    ∀ (rest : List ℕ) (acc : ℕ), acc < 2 ^ n → (∀ x ∈ rest, x < 2 ^ n) →
      gfProj n m (rest.foldl (fun result mi => gf_add (gfMulLoop n m 0 result salt) mi) acc)
        = gfProj n m acc * gfProj n m salt ^ rest.length
          + ∑ j in Finset.range rest.length,
              gfProj n m (rest.getD j 0) * gfProj n m salt ^ (rest.length - 1 - j) := by
  intro rest
  induction rest with
  | nil => intro acc _ _; simp
  | cons mi rest ih =>
    intro acc hacc hall
    simp only [List.foldl_cons]
    have hacc2 : gf_add (gfMulLoop n m 0 acc salt) mi < 2 ^ n := by
      unfold gf_add
      exact Nat.xor_lt_two_pow
        (gfMulLoop_lt n m hm salt 0 acc (Nat.two_pow_pos n) hacc)
        (hall mi (List.mem_cons_self mi rest))
    rw [ih (gf_add (gfMulLoop n m 0 acc salt) mi) hacc2
      (fun x hx => hall x (List.mem_cons_of_mem mi hx))]
    have hstep : gfProj n m (gf_add (gfMulLoop n m 0 acc salt) mi)
        = gfProj n m acc * gfProj n m salt + gfProj n m mi := by
      unfold gf_add
      rw [gfProj_xor, gfMulLoop_proj n m hn hm salt 0 acc hacc, gfProj_zero, zero_add]
    rw [hstep]
    simp only [List.length_cons]
    rw [Finset.sum_range_succ']
    simp only [List.getD_cons_zero, List.getD_cons_succ]
    have hcong : ∀ j ∈ Finset.range rest.length,
        gfProj n m (rest.getD j 0) * gfProj n m salt ^ (rest.length + 1 - 1 - (j + 1))
          = gfProj n m (rest.getD j 0) * gfProj n m salt ^ (rest.length - 1 - j) := by
      intro j hj
      congr 1
      congr 1
      omega
    rw [Finset.sum_congr rfl hcong]
    have hexp0 : rest.length + 1 - 1 - 0 = rest.length := by omega
    rw [hexp0]
    ring

theorem xorfold_lt (n : ℕ) (g : ℕ → ℕ) :
    ∀ L : ℕ, (∀ i < L, g i < 2 ^ n) →
      (List.range L).foldl (fun acc i => gf_add acc (g i)) 0 < 2 ^ n := by
  intro L
  induction L with
  | zero => intro _; simpa using Nat.two_pow_pos n
  | succ L ih =>
    intro hg
    rw [List.range_succ, List.foldl_append]
    simp only [List.foldl_cons, List.foldl_nil]
    unfold gf_add
    exact Nat.xor_lt_two_pow (ih fun i hi => hg i (by omega)) (hg L (by omega))

theorem xorfold_proj (n m : ℕ) (g : ℕ → ℕ) :
    ∀ L : ℕ, gfProj n m ((List.range L).foldl (fun acc i => gf_add acc (g i)) 0)
      = ∑ i in Finset.range L, gfProj n m (g i) := by
  intro L
  induction L with
  | zero => simpa using gfProj_zero n m
  | succ L ih =>
    rw [List.range_succ, List.foldl_append]
    simp only [List.foldl_cons, List.foldl_nil]
    have hx : gfProj n m
        (gf_add ((List.range L).foldl (fun acc i => gf_add acc (g i)) 0) (g L))
        = gfProj n m ((List.range L).foldl (fun acc i => gf_add acc (g i)) 0)
          + gfProj n m (g L) := gfProj_xor n m _ _
    rw [hx, ih, Finset.sum_range_succ]

/-- Core identity: the Horner evaluation with a final multiplication by the
salt equals the power-sum `Σ m_i · r^(L-i+1)`, for in-range elements and
salt. -/
theorem hash_eq_core (n m salt : ℕ) (hn : 0 < n) (hm : m < 2 ^ n) (hsalt : salt < 2 ^ n)
    (e0 : ℕ) (rest : List ℕ) (he0 : e0 < 2 ^ n) (hrest : ∀ x ∈ rest, x < 2 ^ n) :
    gfMulLoop n m 0
        (rest.foldl (fun result mi => gf_add (gfMulLoop n m 0 result salt) mi) e0) salt
      = (List.range (e0 :: rest).length).foldl
          (fun acc i => gf_add acc (gfMulLoop n m 0 ((e0 :: rest).getD i 0)
            (gfPowLoop n m 1 salt ((e0 :: rest).length - i)))) 0 := by
  have hes : ∀ i < (e0 :: rest).length, (e0 :: rest).getD i 0 < 2 ^ n := by
    intro i hi
    match i with
    | 0 => exact he0
    | j + 1 =>
      rw [List.getD_cons_succ]
      have hj : j < rest.length := by
        simp only [List.length_cons] at hi
        omega
      have hmem : rest.getD j 0 ∈ rest := by
        rw [List.getD_eq_getElem?_getD, List.getElem?_eq_getElem hj]
        exact List.getElem_mem _
      exact hrest _ hmem
  have hgbound : ∀ i < (e0 :: rest).length,
      gfMulLoop n m 0 ((e0 :: rest).getD i 0)
        (gfPowLoop n m 1 salt ((e0 :: rest).length - i)) < 2 ^ n := by
    intro i hi
    exact gfMulLoop_lt n m hm _ 0 _ (Nat.two_pow_pos n) (hes i hi)
  apply gfProj_inj n m _ _ hm
  · exact gfMulLoop_lt n m hm salt 0 _ (Nat.two_pow_pos n)
      (horner_lt n m salt hm rest e0 he0 hrest)
  · exact xorfold_lt n _ _ hgbound
  · rw [gfMulLoop_proj n m hn hm salt 0 _ (horner_lt n m salt hm rest e0 he0 hrest),
      gfProj_zero, zero_add, horner_proj n m salt hn hm rest e0 he0 hrest]
    have hR : gfProj n m ((List.range (e0 :: rest).length).foldl
          (fun acc i => gf_add acc (gfMulLoop n m 0 ((e0 :: rest).getD i 0)
            (gfPowLoop n m 1 salt ((e0 :: rest).length - i)))) 0)
        = ∑ i in Finset.range (e0 :: rest).length,
            gfProj n m (gfMulLoop n m 0 ((e0 :: rest).getD i 0)
              (gfPowLoop n m 1 salt ((e0 :: rest).length - i))) :=
      xorfold_proj n m _ _
    rw [hR]
    have hterm : ∀ i ∈ Finset.range (e0 :: rest).length,
        gfProj n m (gfMulLoop n m 0 ((e0 :: rest).getD i 0)
            (gfPowLoop n m 1 salt ((e0 :: rest).length - i)))
          = gfProj n m ((e0 :: rest).getD i 0)
            * gfProj n m salt ^ ((e0 :: rest).length - i) := by
      intro i hi
      rw [Finset.mem_range] at hi
      rw [gfMulLoop_proj n m hn hm _ 0 _ (hes i hi), gfProj_zero, zero_add,
        gfPowLoop_proj n m hn hm _ 1 salt (by
          have := Nat.one_lt_two_pow_iff.mpr (by omega : n ≠ 0)
          omega) hsalt, gfProj_one, one_mul]
    rw [Finset.sum_congr rfl hterm]
    simp only [List.length_cons]
    rw [Finset.sum_range_succ']
    simp only [List.getD_cons_zero, List.getD_cons_succ]
    have hsum : (∑ j in Finset.range rest.length,
          gfProj n m (rest.getD j 0) * gfProj n m salt ^ (rest.length - 1 - j))
            * gfProj n m salt
        = ∑ j in Finset.range rest.length,
            gfProj n m (rest.getD j 0) * gfProj n m salt ^ (rest.length + 1 - (j + 1)) := by
      rw [Finset.sum_mul]
      apply Finset.sum_congr rfl
      intro j hj
      rw [Finset.mem_range] at hj
      rw [mul_assoc, ← pow_succ]
      congr 2
      omega
    have hexp0 : rest.length + 1 - 0 = rest.length + 1 := by omega
    rw [hexp0]
    calc (gfProj n m e0 * gfProj n m salt ^ rest.length
          + ∑ j in Finset.range rest.length,
              gfProj n m (rest.getD j 0) * gfProj n m salt ^ (rest.length - 1 - j))
            * gfProj n m salt
        = gfProj n m e0 * (gfProj n m salt ^ rest.length * gfProj n m salt)
          + (∑ j in Finset.range rest.length,
              gfProj n m (rest.getD j 0) * gfProj n m salt ^ (rest.length - 1 - j))
            * gfProj n m salt := by ring
      _ = gfProj n m e0 * gfProj n m salt ^ (rest.length + 1)
          + ∑ j in Finset.range rest.length,
              gfProj n m (rest.getD j 0) * gfProj n m salt ^ (rest.length + 1 - (j + 1)) := by
          rw [hsum, ← pow_succ]
      _ = (∑ j in Finset.range rest.length,
              gfProj n m (rest.getD j 0) * gfProj n m salt ^ (rest.length + 1 - (j + 1)))
          + gfProj n m e0 * gfProj n m salt ^ (rest.length + 1) := by ring

end QKD

namespace QKD

/-! ## Claim C3: Horner evaluation equals the power sum -/

theorem hash_powsum_main (n m : ℕ) (hn : 0 < n) (hmod : gfModulus n = some m)
    (hm : m < 2 ^ n) (key : List ℕ) (salt : ℕ)
    (hkey : key ≠ []) (hsalt : salt ≠ 0) (hlt : salt < 2 ^ n) :
    compute_polynomial_hash key salt n none = polynomialHashSpec key salt n := by
  simp only [compute_polynomial_hash, polynomialHashSpec, hmod, if_neg hkey, if_neg hsalt,
    Option.getD_none]
  rcases hE : bits_to_field_elements key n with _ | ⟨e0, rest⟩
  · simp
  · have hbounds := bits_to_field_elements_lt key n (by omega)
    rw [hE] at hbounds
    have he0 : e0 < 2 ^ n := hbounds e0 (List.mem_cons_self e0 rest)
    have hrest : ∀ x ∈ rest, x < 2 ^ n := fun x hx => hbounds x (List.mem_cons_of_mem e0 hx)
    exact congrArg some (hash_eq_core n m salt hn hm hlt e0 rest he0 hrest)

/-- C3: for every non-empty key, every salt that is a nonzero field element
(`0 < salt < 2^n`), and each supported field size, `compute_polynomial_hash`
equals the spec's power sum `m_1·r^L + m_2·r^(L-1) + … + m_L·r^1` over the
zero-padded big-endian chunks — the Horner form with a final extra
multiplication by the salt. -/
theorem compute_polynomial_hash_powsum (key : List ℕ) (salt n : ℕ)
    (hkey : key ≠ []) (hsalt : salt ≠ 0) (hlt : salt < 2 ^ n)
    (hn : n = 64 ∨ n = 128) :
    compute_polynomial_hash key salt n none = polynomialHashSpec key salt n := by
  rcases hn with rfl | rfl
  · exact hash_powsum_main 64 GF64_MODULUS (by norm_num) rfl
      (by norm_num [GF64_MODULUS]) key salt hkey hsalt hlt
  · exact hash_powsum_main 128 GF128_MODULUS (by norm_num) rfl
      (by norm_num [GF128_MODULUS]) key salt hkey hsalt hlt

theorem compute_polynomial_hash_powsum_witness :
    ([1] : List ℕ) ≠ [] ∧ (1 : ℕ) ≠ 0 ∧ (1 : ℕ) < 2 ^ 64 ∧ ((64 : ℕ) = 64 ∨ (64 : ℕ) = 128)
      ∧ compute_polynomial_hash [1] 1 64 none = polynomialHashSpec [1] 1 64 :=
  ⟨by decide, by decide, by decide, Or.inl rfl,
    compute_polynomial_hash_powsum [1] 1 64 (by decide) (by decide) (by decide) (Or.inl rfl)⟩

set_option maxRecDepth 100000 in
/-- C3 counterexample: the claim quantifies over every non-zero salt, but for
a salt outside the field (here `2^64`, nonzero) the Horner evaluation and the
power sum disagree, because the unreduced salt enters `gf_multiply` once per
Horner step but is squared inside `gf_power` on the power-sum side. -/
theorem compute_polynomial_hash_powsum_counterexample :
    (List.replicate 63 0 ++ [1, 0] : List ℕ) ≠ []
    ∧ (2 : ℕ) ^ 64 ≠ 0
    ∧ compute_polynomial_hash (List.replicate 63 0 ++ [1, 0]) (2 ^ 64) 64 none = some 325
    ∧ polynomialHashSpec (List.replicate 63 0 ++ [1, 0]) (2 ^ 64) 64
        = some 9223372036854775983 := by
  refine ⟨by decide, by decide, ?_, ?_⟩ <;> decide

end QKD


namespace QKD

/-! ## Claim C1: concrete key-length values -/

/-- C1: for `reconciled_length = 10000`, `qber = 0.05`, `leakage_ec = 500`,
`leakage_ver = 64`, `epsilon_sec = 1e-12` and `efficiency_factor = 1`,
`compute_final_key_length` returns exactly 6492; and with `qber = 0.11`
(at the security threshold) it returns 0. -/
theorem compute_final_key_length_concrete :
    compute_final_key_length 10000 (1/20) 500 64 (1/10^12) 1 = some 6492
    ∧ compute_final_key_length 10000 (11/100) 500 64 (1/10^12) 1 = some 0 := by
  constructor
  · have hsec : is_qber_secure (1/20) (11/100) = true := by
      simp only [is_qber_secure, decide_eq_true_eq]
      norm_num
    have hmargin : compute_security_margin (1/1000000000000)
        = some (2 * Real.logb 2 ((10:ℝ)^12)) := by
      rw [compute_security_margin, if_neg (by norm_num)]
      norm_num
    have hcap : secrecy_capacity (1/20)
        = some (1 - (-((1/20:ℝ) * Real.logb 2 (1/20))
            - (19/20) * Real.logb 2 (19/20))) := by
      rw [secrecy_capacity, if_neg (by norm_num), if_neg (by norm_num), binary_entropy,
        if_neg (by norm_num), if_neg (by norm_num)]
      norm_num
    rw [compute_final_key_length]
    norm_num [hsec, hmargin, hcap]
    have hl2pos : (0:ℝ) < Real.log 2 := Real.log_pos (by norm_num)
    have hl2ne : Real.log 2 ≠ 0 := ne_of_gt hl2pos
    have hlog4 : Real.log 4 = 2 * Real.log 2 := by
      rw [show (4:ℝ) = 2^2 by norm_num, Real.log_pow]
      push_cast
      ring
    have hlog5 : Real.log 5 = 2 * Real.log 2 - Real.log (4/5) := by
      rw [Real.log_div (by norm_num) (by norm_num), hlog4]
      ring
    have hlog120 : Real.log (1/20 : ℝ) = Real.log (4/5) - 4 * Real.log 2 := by
      rw [show (1/20 : ℝ) = ((20:ℝ))⁻¹ by norm_num, Real.log_inv,
        show (20:ℝ) = 4 * 5 by norm_num, Real.log_mul (by norm_num) (by norm_num),
        hlog4, hlog5]
      ring
    have hlog1012 : Real.log ((1000000000000:ℝ))
        = 36 * Real.log 2 - 12 * Real.log (4/5) := by
      rw [show (1000000000000:ℝ) = 10^12 by norm_num, Real.log_pow,
        show (10:ℝ) = 2 * 5 by norm_num, Real.log_mul (by norm_num) (by norm_num), hlog5]
      push_cast
      ring
    have h45 := Real.abs_log_sub_add_sum_range_le
      (show |(1/5 : ℝ)| < 1 by
        rw [abs_of_nonneg (by norm_num : (0:ℝ) ≤ 1/5)]
        norm_num) 8
    rw [show |(1/5 : ℝ)| = 1/5 from abs_of_nonneg (by norm_num)] at h45
    simp only [Finset.sum_range_succ, Finset.sum_range_zero] at h45
    norm_num at h45
    rw [abs_le] at h45
    obtain ⟨h45lo, h45hi⟩ := h45
    have h1920 := Real.abs_log_sub_add_sum_range_le
      (show |(1/20 : ℝ)| < 1 by
        rw [abs_of_nonneg (by norm_num : (0:ℝ) ≤ 1/20)]
        norm_num) 5
    rw [show |(1/20 : ℝ)| = 1/20 from abs_of_nonneg (by norm_num)] at h1920
    simp only [Finset.sum_range_succ, Finset.sum_range_zero] at h1920
    norm_num at h1920
    rw [abs_le] at h1920
    obtain ⟨h20lo, h20hi⟩ := h1920
    have hX : (10000:ℝ) * (1 - (-(1 / 20 * Real.logb 2 (1 / 20))
          - 19 / 20 * Real.logb 2 (19 / 20))) - 500 - 64
          - 2 * Real.logb 2 1000000000000
        = (7364 * Real.log 2 + 524 * Real.log (4/5) + 9500 * Real.log (19/20))
            / Real.log 2 := by
      simp only [← Real.log_div_log]
      rw [hlog120, hlog1012]
      field_simp
      ring
    have hfl : ⌊(7364 * Real.log 2 + 524 * Real.log (4/5) + 9500 * Real.log (19/20))
        / Real.log 2⌋ = (6492:ℤ) := by
      rw [Int.floor_eq_iff]
      constructor
      · rw [le_div_iff₀ hl2pos]
        push_cast
        linarith [Real.log_two_gt_d9, Real.log_two_lt_d9]
      · rw [div_lt_iff₀ hl2pos]
        push_cast
        linarith [Real.log_two_gt_d9, Real.log_two_lt_d9]
    rw [hX, hfl]
    decide
  · have hns : is_qber_secure (11/100) (11/100) = false := by
      simp only [is_qber_secure, decide_eq_false_iff_not]
      norm_num
    rw [compute_final_key_length]
    norm_num [hns]

end QKD
